import Mathlib

/-!
Verification of the MDSS sweep-orchestration engine.

This file gives a shallow embedding of the orchestration, checkpointing and
result-aggregation code of the MDSS repository and proves properties about it:

* `deep_update` and its helpers embed `mdss/utils/helpers.py::deep_update`
  (lines 267-303).
* `filter_aoa_loop` embeds the skip/rerun filter of
  `mdss/src/main_helper.py::execute` (lines 121-144).
* `append_level_table` embeds the per-refinement-level CSV merge of
  `mdss/src/main_helper.py::execute` (lines 222-234).
* `run_as_subprocess_result` embeds the stdout result-marker scan of
  `mdss/src/main_helper.py::run_as_subprocess` (lines 407-432).
* `submit_job_id` embeds the job-id parse of
  `mdss/src/main_helper.py::submit_job_on_hpc` (line 335).
* `executeModel` embeds the per-scenario report assembly and final
  deep-merge of `mdss/src/main_helper.py::execute` (lines 26-276).

Python dictionaries are modelled as association lists in insertion order,
Python exceptions as an explicit error flag carried beside the partially
mutated state (matching in-place mutation followed by `raise`), and floats
as rationals.
-/

/-- Model of a Python/YAML value: scalars, lists and (insertion-ordered)
string-keyed dictionaries. Floats are modelled as rationals. -/
inductive PyVal where
  | pstr  : String → PyVal
  | pint  : Int → PyVal
  | pnum  : ℚ → PyVal
  | pbool : Bool → PyVal
  | pnone : PyVal
  | plist : List PyVal → PyVal
  | pdict : List (String × PyVal) → PyVal
deriving Repr

/-- A Python dict, modelled as an association list in insertion order. -/
abbrev PyDict := List (String × PyVal)

/-- Python `d[key]` / `key in d`: first binding of `key` (model dicts carry
at most one binding per key, as Python dicts do). -/
def lookupKey : PyDict → String → Option PyVal
  | [], _ => none
  | (k, v) :: rest, key => if k = key then some v else lookupKey rest key

/-- Python `d[key] = v`: overwrite the binding in place if present,
else append a new binding (insertion order). -/
def setKey : PyDict → String → PyVal → PyDict
  | [], key, v => [(key, v)]
  | (k, w) :: rest, key, v =>
      if k = key then (k, v) :: rest else (k, w) :: setKey rest key v

/-- The keys of a dict, in insertion order. -/
def dictKeys (d : PyDict) : List String := d.map Prod.fst

/-- Python `isinstance(v, dict)`. -/
def PyVal.isDict : PyVal → Bool
  | .pdict _ => true
  | _ => false

/-- Numeric view of a scalar, following Python's cross-type numeric `==`
(`bool ⊂ int ⊂ float`). -/
def toRatScalar : PyVal → Option ℚ
  | .pint n => some (n : ℚ)
  | .pnum q => some q
  | .pbool b => some (if b then 1 else 0)
  | _ => none

/-- Python `==` on hashable scalar values — the only values that can appear
as dict keys (e.g. the `name` keys used by `deep_update`). -/
def nameEq (a b : PyVal) : Bool :=
  match toRatScalar a, toRatScalar b with
  | some x, some y => x == y
  | _, _ =>
    match a, b with
    | .pstr s, .pstr t => s == t
    | .pnone, .pnone => true
    | _, _ => false

/-- Python hashability: lists and dicts are unhashable and raise `TypeError`
when used as dict keys. -/
def PyVal.hashable : PyVal → Bool
  | .plist _ => false
  | .pdict _ => false
  | _ => true

/-- Python `item['name']` for a dict; `none` models the `KeyError` /
`TypeError` raised when the item is not a dict or lacks the key. -/
def getName : PyVal → Option PyVal
  | .pdict d => lookupKey d "name"
  | _ => none

/-- Model of `base_items = {item['name']: item for item in base_dict[key]}`
in `deep_update`: for each list item, its `name` mapped to its position.
`none` models the `KeyError`/`TypeError` the comprehension raises when an
item lacks a `name` or the name is unhashable. Later duplicates override
earlier ones, as in a Python dict comprehension. -/
def buildBaseItems : List PyVal → Nat → Option (List (PyVal × Nat))
  | [], _ => some []
  | item :: rest, i =>
      match getName item with
      | none => none
      | some nm =>
          if nm.hashable then
            match buildBaseItems rest (i + 1) with
            | none => none
            | some idx => some ((nm, i) :: idx)
          else none

/-- Python `base_items[name]` / `name in base_items`: the position recorded
for `name`; later bindings in the built dict win. -/
def lookupNameIdx (idx : List (PyVal × Nat)) (nm : PyVal) : Option Nat :=
  ((idx.filter (fun p => nameEq p.1 nm)).getLast?).map Prod.snd

/-!
### `deep_update` (mdss/utils/helpers.py, lines 267-303)

The Python function mutates `base_dict` in place and may raise; the model
returns the (possibly partially updated) dict together with an error flag
(`true` = an exception escaped at that point, later work not performed).
-/

mutual

/-- Model of `deep_update(base_dict, update_dict)`: iterate over the update
dict's bindings in order, merging each into the base. -/
def deep_update : PyDict → PyDict → PyDict × Bool
  | base, [] => (base, false)
  | base, (k, v) :: rest =>
      let r := update_key base k v
      if r.2 then (r.1, true) else deep_update r.1 rest
termination_by _ u => (sizeOf u, 1)

/-- One iteration of the `deep_update` loop: merge the binding `k ↦ v`
into `base` (the `if key in base_dict` branch structure). -/
def update_key : PyDict → String → PyVal → PyDict × Bool
  | base, k, v =>
      match lookupKey base k with
      | none => (base ++ [(k, v)], false)
      | some bv =>
          let r := merge_value bv v
          (setKey base k r.1, r.2)
termination_by _ _ v => (sizeOf v, 1)

/-- How an existing value `bv` is combined with the update value `v`:
dict/dict recurses, list/list of dicts merges by `name`, any other list
pair falls back to overwrite, and anything else is overwritten. -/
def merge_value : PyVal → PyVal → PyVal × Bool
  | .pdict bd, .pdict ud =>
      let r := deep_update bd ud
      (.pdict r.1, r.2)
  | .plist bl, .plist ul =>
      if (bl ++ ul).all PyVal.isDict then
        match buildBaseItems bl 0 with
        | none => (.plist bl, true)
        | some idx =>
            let r := merge_loop idx bl ul
            (.plist r.1, r.2)
      else (.plist ul, false)
  | _, v => (v, false)
termination_by _ v => (sizeOf v, 0)

/-- The `for item in value` loop of the list-of-dicts branch: items whose
name matches a base item are deep-merged into it in place; unmatched items
are appended. -/
def merge_loop : List (PyVal × Nat) → List PyVal → List PyVal → List PyVal × Bool
  | _, cur, [] => (cur, false)
  | idx, cur, item :: rest =>
      match getName item with
      | none => (cur, true)
      | some nm =>
          match lookupNameIdx idx nm with
          | some i =>
              match cur[i]?, item with
              | some (.pdict bd), .pdict ud =>
                  let r := deep_update bd ud
                  let cur' := cur.set i (.pdict r.1)
                  if r.2 then (cur', true) else merge_loop idx cur' rest
              | _, _ => (cur, true)
          | none => merge_loop idx (cur ++ [item]) rest
termination_by _ _ ul => (sizeOf ul, 0)

end

/-- The value that ends up at a key after one `deep_update` step, as a
function of the previous value at that key (absent keys are simply bound). -/
def merge_value_at : Option PyVal → PyVal → PyVal × Bool
  | none, v => (v, false)
  | some bv, v => merge_value bv v

/-- The `name` values of a list of record dicts (in order). -/
def listNames (l : List PyVal) : List PyVal := l.filterMap getName

/-- Python `isinstance(v, list)`. -/
def PyVal.isList : PyVal → Bool
  | .plist _ => true
  | _ => false

/-- Canonical key of a hashable scalar: numeric values (int/float/bool)
collapse to their rational value, as Python dict keys do; strings and
`None` stand alone. `none` for unhashable values. -/
def nameKey : PyVal → Option (ℚ ⊕ String ⊕ Unit)
  | .pint n => some (Sum.inl (n : ℚ))
  | .pnum q => some (Sum.inl q)
  | .pbool b => some (Sum.inl (if b then 1 else 0))
  | .pstr s => some (Sum.inr (Sum.inl s))
  | .pnone => some (Sum.inr (Sum.inr ()))
  | _ => none

/-- The canonical key of an item's `name` field, if the item is a dict with
a hashable name. -/
def itemKey (v : PyVal) : Option (ℚ ⊕ String ⊕ Unit) := (getName v).bind nameKey

/-- Whether two record dicts carry Python-equal `name` values. -/
def nameMatch (a b : PyVal) : Bool :=
  ((getName a).bind (fun na => (getName b).map (fun nb => nameEq na nb))).getD false

/-- The value of `base_items` built by `deep_update`'s dict comprehension over
a list whose items all carry names: each item's name with its position. -/
def baseItemsSpec : List PyVal → Nat → List (PyVal × Nat)
  | [], _ => []
  | v :: rest, j => ((getName v).getD .pnone, j) :: baseItemsSpec rest (j + 1)

/-- The base list after merging the matched entries of a processed update
prefix `P` into it: entries with a matching update item are recursively
deep-merged, every other entry is kept verbatim (no old entry is dropped). -/
def applyMatches (bl P : List PyVal) : List PyVal :=
  bl.map (fun bi =>
    match P.find? (fun ui => nameMatch bi ui) with
    | some ui =>
        match bi, ui with
        | .pdict bd, .pdict ud => .pdict (deep_update bd ud).1
        | _, _ => bi
    | none => bi)

/-- The update items whose names match no base entry, in order. -/
def filterUnmatched (bl P : List PyVal) : List PyVal :=
  P.filter (fun ui => !(bl.any (fun bi => nameMatch bi ui)))

/-- A record dict's keys are unique (trivially true for non-dicts). -/
def recordKeysNodup : PyVal → Bool
  | .pdict d => decide ((dictKeys d).Nodup)
  | _ => true

/-- A well-formed list of named records: every item is a dict with unique
keys carrying a hashable `name`, and the names are pairwise distinct. -/
def WFNamedList (l : List PyVal) : Prop :=
  (∀ v ∈ l, PyVal.isDict v = true ∧ (itemKey v).isSome = true ∧
    recordKeysNodup v = true) ∧
  (l.map itemKey).Nodup

/-- Restatement of the specification's named-list merge rule, used to
characterise `merge_loop`: entries of the base list whose name matches an
update entry are recursively merged in place, all other base entries are
kept verbatim, and update entries whose name matches no base entry are
appended in order. -/
def spec_merge_named (bl ul : List PyVal) : List PyVal :=
  applyMatches bl ul ++ filterUnmatched bl ul

/-- The canonical name keys of the entries of a list-of-records value:
the named-list membership a merged field exposes. -/
def namedKeys : PyVal → List (Option (ℚ ⊕ String ⊕ Unit))
  | .plist l => l.map itemKey
  | _ => []

/-!
### Skip/rerun filter of `execute` (mdss/src/main_helper.py, lines 121-144)

One refinement level: for each angle of attack the per-unit checkpoint file
`aoa_<a>/aoa_<a>.yaml` is read inside `try/except`; a parsed record whose
`fail_flag` equals 0 is removed from the list to dispatch and its `cl`,
`cd`, `wall_time` metrics are kept; every exception (absent file, unreadable
or corrupt YAML, record without `fail_flag`) falls through to `continue`,
leaving the angle in the dispatch list. Angles of attack are modelled as
rationals (floats).
-/

/-- State of a per-unit checkpoint file on disk. `unreadable` covers I/O and
YAML parse errors; `record` carries the parsed YAML value (which may be
corrupt, e.g. not a dict or lacking `fail_flag`). -/
inductive CkptFile where
  | absent
  | unreadable
  | record (v : PyVal)

/-- Reading `aoa_sim_info['fail_flag']` from a checkpoint file; `none` is any
exception caught by the `except: continue`. Returns the record dict and the
flag value. -/
def readFailFlag : CkptFile → Option (PyDict × PyVal)
  | .record (.pdict d) => (lookupKey d "fail_flag").map (fun ff => (d, ff))
  | _ => none

/-- Python `fail_flag == 0` (cross-type numeric equality). -/
def eqZeroPy (v : PyVal) : Bool := toRatScalar v == some 0

/-- A checkpoint file recording a successful run: a parsed record whose
`fail_flag` compares equal to 0. -/
def cleanCkpt (f : CkptFile) : Bool :=
  match readFailFlag f with
  | some (_, ff) => eqZeroPy ff
  | none => false

/-- `f"aoa_{aoa}"` for a float angle of attack. -/
def aoaKey (a : ℚ) : String := "aoa_" ++ toString a

/-- `{key: value for key, value in aoa_sim_info.items() if key in ['cl', 'cd', 'wall_time']}`. -/
def skipMetrics (d : PyDict) : PyDict :=
  d.filter (fun kv => kv.1 = "cl" ∨ kv.1 = "cd" ∨ kv.1 = "wall_time")

/-- Python `list.remove`: drop the first occurrence. (The source only calls
it on values present in the list, so the raise-on-absent case cannot occur.) -/
def remove_first (a : ℚ) : List ℚ → List ℚ
  | [] => []
  | x :: xs => if x = a then xs else x :: remove_first a xs

/-- Accumulated state of the existing-simulation check loop. -/
structure FilterState where
  filtered : List ℚ
  skipped : List ℚ
  skippedInfo : PyDict

/-- One iteration of the existing-simulation check loop (lines 125-141). -/
def filter_step (ckpt : ℚ → CkptFile) (st : FilterState) (aoa : ℚ) : FilterState :=
  match readFailFlag (ckpt aoa) with
  | none => st
  | some (d, ff) =>
      if eqZeroPy ff then
        { filtered := remove_first aoa st.filtered
          skipped := st.skipped ++ [aoa]
          skippedInfo := setKey st.skippedInfo (aoaKey aoa) (.pdict (skipMetrics d)) }
      else st

/-- The whole existing-simulation check loop: `filtered_aoa_list` starts as a
copy of `aoa_list` and each angle with a clean checkpoint is removed from it
and recorded as skipped. -/
def filter_aoa_loop (ckpt : ℚ → CkptFile) (aoaList : List ℚ) : FilterState :=
  aoaList.foldl (filter_step ckpt) ⟨aoaList, [], []⟩

/-- The dispatch payload for a refinement level (lines 151-162): the filtered
list is handed to the subprocess / in-process solver only when non-empty. -/
def dispatch_payload (ckpt : ℚ → CkptFile) (aoaList : List ℚ) : Option (List ℚ) :=
  let st := filter_aoa_loop ckpt aoaList
  if st.filtered ≠ [] then some st.filtered else none

/-- `problem_results` for a refinement level (lines 146-165): results coming
back from a dispatch (if any), overridden by the stored metrics of skipped
units. `solver` models what the dispatched batch returns. -/
def level_results (solver : List ℚ → PyDict) (ckpt : ℚ → CkptFile)
    (aoaList : List ℚ) : PyDict :=
  let st := filter_aoa_loop ckpt aoaList
  let base := match dispatch_payload ckpt aoaList with
    | some payload => solver payload
    | none => []
  st.skippedInfo.foldl (fun acc kv => setKey acc kv.1 kv.2) base

/-- Number of occurrences of a condition value in a list. -/
def countQ (a : ℚ) (l : List ℚ) : Nat := l.countP (fun x => decide (x = a))

/-!
### Per-level CSV merge (mdss/src/main_helper.py, lines 222-234)

`pd.concat` of the existing table (if readable) with the new rows, then
`drop_duplicates(subset='Alpha', keep='last')` and `sort_values(by='Alpha')`.
A row is a condition value (`Alpha`, parsed numeric) paired with the rest of
the row. After deduplication the keys are distinct, so the unstable pandas
quicksort produces the same table as any sort by `Alpha`.
-/

/-- `drop_duplicates(subset='Alpha', keep='last')`: keep a row iff no later
row has the same `Alpha`, preserving order of the kept rows. -/
def dedup_keep_last {α : Type} : List (ℚ × α) → List (ℚ × α)
  | [] => []
  | r :: rs =>
      if rs.any (fun s => decide (s.1 = r.1)) then dedup_keep_last rs
      else r :: dedup_keep_last rs

/-- `sort_values(by='Alpha')`. -/
def sort_by_alpha {α : Type} (l : List (ℚ × α)) : List (ℚ × α) :=
  List.insertionSort (fun a b => a.1 ≤ b.1) l

instance rowKeyLeIsTotal {α : Type} : IsTotal (ℚ × α) (fun a b => a.1 ≤ b.1) :=
  ⟨fun a b => le_total a.1 b.1⟩

instance rowKeyLeIsTrans {α : Type} : IsTrans (ℚ × α) (fun a b => a.1 ≤ b.1) :=
  ⟨fun _ _ _ hab hbc => le_trans hab hbc⟩

/-- The persisted per-level table after appending new rows: concatenate
(an unreadable/absent existing table loads as nothing), de-duplicate keeping
the latest row per condition value, sort ascending. -/
def append_level_table {α : Type} (existing : Option (List (ℚ × α)))
    (newRows : List (ℚ × α)) : List (ℚ × α) :=
  sort_by_alpha (dedup_keep_last (existing.getD [] ++ newRows))

/-!
### Result-marker scan (mdss/src/main_helper.py, lines 407-432)

The parent reads the worker's stdout line by line; a line starting with
`::RESULT::` has its payload extracted by the non-greedy regex
`::RESULT::(.*?)::RESULT::` (group(1) of a failed search raises
`AttributeError`); after the loop, `json.loads(subprocess_result_json)`
raises `UnboundLocalError` when no marker line ever assigned the variable.
`json.loads` itself is external library code, modelled as an opaque
function applied to the extracted payload.
-/

/-- The literal result marker. -/
def resultMarker : List Char := "::RESULT::".data

/-- Characters before the first occurrence of the result marker, if any
(the non-greedy `(.*?)` group up to the closing delimiter). -/
def findBeforeMarker : List Char → Option (List Char)
  | [] => none
  | c :: cs =>
      if resultMarker.isPrefixOf (c :: cs) then some []
      else (findBeforeMarker cs).map (fun l => c :: l)

/-- Python `str.strip()`. -/
def stripChars (cs : List Char) : List Char :=
  ((cs.dropWhile Char.isWhitespace).reverse.dropWhile Char.isWhitespace).reverse

/-- What one stdout line contributes to the scan. -/
inductive LineScan where
  | skip
  | crash
  | payload (s : String)

/-- Scan of a single line: non-marker lines are ignored; a marker line's
payload is `group(1).strip()`; a line starting with the marker but with no
closing marker makes `match.group(1)` raise (`match` is `None`). -/
def scan_line (line : String) : LineScan :=
  if resultMarker.isPrefixOf line.data then
    match findBeforeMarker (line.data.drop resultMarker.length) with
    | some body => .payload (String.mk (stripChars body))
    | none => .crash
  else .skip

/-- The `for line in p.stdout` loop, threading `subprocess_result_json`
(unassigned = `none`). -/
def scan_stdout : Option String → List String → Option String × Bool
  | acc, [] => (acc, false)
  | acc, line :: rest =>
      match scan_line line with
      | .skip => scan_stdout acc rest
      | .crash => (acc, true)
      | .payload s => scan_stdout (some s) rest

/-- Python exceptions that can escape `run_as_subprocess`'s result handling. -/
inductive SubprocErr where
  | attributeError
  | unboundLocal
deriving Repr, DecidableEq

/-- The structured result recovered by `run_as_subprocess` from the worker's
stdout: the last marker payload parsed by `json.loads` (modelled as the
opaque `loads`), or the exception that escapes. -/
def run_as_subprocess_result (loads : String → PyVal) (stdoutLines : List String) :
    Except SubprocErr PyVal :=
  match scan_stdout none stdoutLines with
  | (_, true) => .error .attributeError
  | (none, false) => .error .unboundLocal
  | (some s, false) => .ok (loads s)

/-!
### Scheduler job-id parse (mdss/src/main_helper.py, line 335)

`job_id = subprocess_out.stdout.strip().split()[-1]`. Python `split()` with
no separator splits on runs of whitespace and drops empty fields, so the
leading `strip()` is absorbed; `[-1]` on an empty list raises `IndexError`
(modelled by `Option`).
-/

/-- Maximal whitespace-free words of a character list (Python `str.split()`):
the accumulator carries the word currently being read, reversed. -/
def wordsByGo (p : Char → Bool) : List Char → List Char → List (List Char)
  | acc, [] => if acc.isEmpty then [] else [acc.reverse]
  | acc, c :: cs =>
      if p c then
        if acc.isEmpty then wordsByGo p [] cs
        else acc.reverse :: wordsByGo p [] cs
      else wordsByGo p (c :: acc) cs

/-- Python `str.split()` (no separator): maximal runs of non-whitespace. -/
def wordsBy (p : Char → Bool) (cs : List Char) : List (List Char) :=
  wordsByGo p [] cs

/-- Rebuild a text from its lines, separated by a given character. -/
def joinLines (sep : Char) : List (List Char) → List Char
  | [] => []
  | [l] => l
  | l :: rest => l ++ sep :: joinLines sep rest

/-- The job identifier parsed from the submit command's acknowledgement
output: the last whitespace-delimited token of the whole output. -/
def submit_job_id (stdout : String) : Option String :=
  ((wordsBy Char.isWhitespace stdout.data).getLast?).map String.mk

/-- Modelled from the spec's words (for comparison with `submit_job_id`):
"the first whitespace-delimited token from the last line" of the output. -/
def spec_first_token_last_line (stdout : String) : Option String :=
  (((String.mk (stripChars stdout.data)).data.splitOn '\n' |>.getLast?).bind
    (fun l => (wordsBy Char.isWhitespace l).head?)).map String.mk

/-- The last whitespace-delimited token of the last line that contains any
token (amended description of the job-id parse, stated over the output's
lines). -/
def last_token_of_lines (lines : List (List Char)) : Option (List Char) :=
  ((lines.filter (fun l => !((wordsBy Char.isWhitespace l).isEmpty))).getLast?).bind
    (fun l => (wordsBy Char.isWhitespace l).getLast?)

/-!
### A full pass of `execute` and its rerun (mdss/src/main_helper.py, lines 26-276)

We model one pass of `execute` for a sweep holding one hierarchy, one case,
one scenario and one refinement level (the outer loops repeat this
construction independently), with `write_mdss_files` on. Beyond the skip
filter and dispatch modelled above, a pass

- rebuilds `refinement_level_dict` from the per-unit checkpoint files in the
  writer loop (lines 171-212; the `yaml.dump` at line 206 writes the loaded
  record back unchanged, so the pass leaves the store as it found it),
- grafts it into a deep copy of the input spec at
  `['hierarchies'][0]['cases'][0]['scenarios'][0]['sim_info']` (line 247),
- appends the wall-clock `overall_sim_info` (lines 252-263), and
- if `overall_sim_info.yaml` already exists, deep-merges the new report into
  the loaded previous content (lines 265-270) before persisting it.

The store is read twice per pass — by the skip filter before dispatch and by
the writer loop after the dispatched solver wrote its checkpoints — so the
model takes both stores; on a rerun with no external state change the two
coincide. `float()` applied to a string is the opaque parameter `pfloat`.
-/

/-- `int(fail_flag)` on a numeric scalar: truncation toward zero. -/
def intOfPy (v : PyVal) : Int :=
  match toRatScalar v with
  | some q => Int.tdiv q.num (q.den : Int)
  | none => 0

/-- `float(x)`: numeric scalars convert directly, strings through the opaque
`pfloat`, anything else raises (`none`). -/
def floatPy (pfloat : String → Option ℚ) : PyVal → Option ℚ
  | .pstr s => pfloat s
  | v => toRatScalar v

/-- `float(aoa_sim_info['wall_time'].replace(" sec", ""))`: `.replace` needs
a string, and the stripped text must parse as a float. -/
def wallTimeFloat (pfloat : String → Option ℚ) : PyVal → Option ℚ
  | .pstr s => pfloat (s.replace " sec" "")
  | _ => none

/-- `aoa_out_dir` for one angle under the refinement directory. -/
def aoaOutDir (refdir : String) (a : ℚ) : String :=
  refdir ++ "/aoa_" ++ toString a

/-- One iteration of the writer loop (lines 171-210) for one angle: `none` is
any exception (unreadable record, missing key, failed conversion), sending
the angle to `failed_aoa_list`; `some none` is a read record with nonzero
`fail_flag` (also failed); `some (some e)` is the `aoa_level_dict` entry of a
successful record. -/
def writer_entry (pfloat : String → Option ℚ) (f : CkptFile) (outdir : String) :
    Option (Option PyDict) :=
  match readFailFlag f with
  | none => none
  | some (d, ff) =>
      if eqZeroPy ff then
        match lookupKey d "AOA", (lookupKey d "cl").bind (floatPy pfloat),
            (lookupKey d "cd").bind (floatPy pfloat),
            (lookupKey d "wall_time").bind (wallTimeFloat pfloat) with
        | some _, some cl, some cd, some _ =>
            some (some [("cl", .pnum cl), ("cd", .pnum cd),
              ("wall_time", ((lookupKey d "wall_time").getD .pnone)),
              ("fail_flag", .pint (intOfPy ff)), ("out_dir", .pstr outdir)])
        | _, _, _, _ => none
      else some none

/-- `if aoa not in failed_aoa_list: failed_aoa_list.append(aoa)`. -/
def addFailed (l : List ℚ) (a : ℚ) : List ℚ := if a ∈ l then l else l ++ [a]

/-- The writer loop over the angle list: the successful entries of
`refinement_level_dict` (keyed `aoa_<a>`) and `failed_aoa_list`. -/
def writer_loop (pfloat : String → Option ℚ) (ckpt : ℚ → CkptFile)
    (refdir : String) (aoaList : List ℚ) : PyDict × List ℚ :=
  aoaList.foldl (fun acc aoa =>
    match writer_entry pfloat (ckpt aoa) (aoaOutDir refdir aoa) with
    | some (some e) => (setKey acc.1 (aoaKey aoa) (.pdict e), acc.2)
    | _ => (acc.1, addFailed acc.2 aoa)) ([], [])

/-- `refinement_level_dict` as persisted: the writer-loop entries plus
`failed_aoa` (line 212), `csv_file` and `refinement_out_dir` (lines 237-238). -/
def refinement_level_val (pfloat : String → Option ℚ) (ckpt : ℚ → CkptFile)
    (refdir csvfile : String) (aoaList : List ℚ) : PyDict :=
  let w := writer_loop pfloat ckpt refdir aoaList
  setKey (setKey (setKey w.1 "failed_aoa" (.plist (w.2.map .pnum)))
    "csv_file" (.pstr csvfile)) "refinement_out_dir" (.pstr refdir)

/-- `scenario_sim_info` (lines 96-97 and 241). -/
def scenario_sim_info_val (pfloat : String → Option ℚ) (ckpt : ℚ → CkptFile)
    (scndir refdir csvfile mesh : String) (aoaList : List ℚ) : PyDict :=
  setKey [("scenario_out_dir", .pstr scndir)] mesh
    (.pdict (refinement_level_val pfloat ckpt refdir csvfile aoaList))

/-- In-place update of one field of a dict value (`d[k] = f(d[k])`; on a
missing key or non-dict the source would raise, left unchanged here — the
theorems only apply it to well-formed specs). -/
def overKey (k : String) (f : PyVal → PyVal) : PyVal → PyVal
  | .pdict d =>
      .pdict (match lookupKey d k with
        | some v => setKey d k (f v)
        | none => d)
  | v => v

/-- In-place update of the first element of a list value (`l[0]`). -/
def overFirst (f : PyVal → PyVal) : PyVal → PyVal
  | .plist (x :: xs) => .plist (f x :: xs)
  | v => v

/-- `d[k] = v` on a dict value. -/
def setDictKey (k : String) (v : PyVal) : PyVal → PyVal
  | .pdict d => .pdict (setKey d k v)
  | x => x

/-- Line 247 for the single-scenario sweep:
`sim_out_info['hierarchies'][0]['cases'][0]['scenarios'][0]['sim_info'] =
scenario_sim_info`. -/
def set_scenario_sim_info (sim : PyDict) (v : PyVal) : PyDict :=
  match lookupKey sim "hierarchies" with
  | some hs =>
      setKey sim "hierarchies" (overFirst (overKey "cases" (overFirst
        (overKey "scenarios" (overFirst (setDictKey "sim_info" v))))) hs)
  | none => sim

/-- The wall-clock strings sampled by one pass (lines 64-65 and 252-258). -/
structure Clock where
  startWall : String
  endWall : String
  total : String

/-- `overall_sim_info` (lines 255-259). -/
def overall_sim_info_val (c : Clock) : PyDict :=
  [("start_time", .pstr c.startWall), ("end_time", .pstr c.endWall),
   ("total_wall_time", .pstr c.total)]

/-- What one pass of `execute` leaves behind: the payload handed to the
solver (`none` = no dispatch), the persisted `overall_sim_info.yaml` report,
and whether the final deep merge raised. -/
structure RunOutput where
  payload : Option (List ℚ)
  report : PyDict
  mergeErr : Bool

/-- One pass of `execute`: the skip filter dispatches the unclean angles read
from `ckptF`, the writer loop rebuilds the level report from `ckptW` (the
store as the writer sees it), and the report is persisted, deep-merged into
the previous file's content when one exists. -/
def execute_run (pfloat : String → Option ℚ) (sim : PyDict) (aoaList : List ℚ)
    (scndir refdir csvfile mesh : String) (ckptF ckptW : ℚ → CkptFile)
    (prevOut : Option PyDict) (c : Clock) : RunOutput :=
  let payload := dispatch_payload ckptF aoaList
  let scnv : PyVal :=
    .pdict (scenario_sim_info_val pfloat ckptW scndir refdir csvfile mesh aoaList)
  let body := set_scenario_sim_info sim scnv
  let outInfo := setKey body "overall_sim_info" (.pdict (overall_sim_info_val c))
  match prevOut with
  | some prev =>
      let r := deep_update prev outInfo
      ⟨payload, r.1, r.2⟩
  | none => ⟨payload, outInfo, false⟩

/-- A minimal one-scenario sweep spec, used to exercise a rerun concretely. -/
def c4sim : PyDict :=
  [("hierarchies", .plist [.pdict [("name", .pstr "h"),
    ("cases", .plist [.pdict [("name", .pstr "c"),
      ("scenarios", .plist [.pdict [("name", .pstr "s")]])]])]])]

/-- A pass of `execute` on the minimal sweep: no angles, empty store. -/
def c4run (prevOut : Option PyDict) (c : Clock) : RunOutput :=
  execute_run (fun _ => none) c4sim [] "sd" "rd" "cf" "m1"
    (fun _ => CkptFile.absent) (fun _ => CkptFile.absent) prevOut c

/-!
### Values absorbed by a self-merge

`deep_update` of a report into an identical one is the identity when every
nested dict has unique keys and every all-dict list is a well-formed named
record list; `selfOk` captures this shape. Reports produced from well-formed
specs satisfy it, so a rerun's merge only refreshes what actually changed.
-/

mutual

/-- Every nested dict has unique keys, and every list whose items are all
dicts is a uniquely and hashably named record list. -/
def selfOk : PyVal → Bool
  | .pdict d => decide ((dictKeys d).Nodup) && selfOkDict d
  | .plist l =>
      if l.all PyVal.isDict then
        (l.all (fun v => (itemKey v).isSome) && decide ((l.map itemKey).Nodup))
          && selfOkList l
      else true
  | _ => true
termination_by v => sizeOf v

def selfOkList : List PyVal → Bool
  | [] => true
  | v :: rest => selfOk v && selfOkList rest
termination_by l => sizeOf l

def selfOkDict : PyDict → Bool
  | [] => true
  | (_, v) :: rest => selfOk v && selfOkDict rest
termination_by d => sizeOf d

end

/-!
### Basic association-list lemmas
-/

theorem lookupKey_setKey_self (d : PyDict) (k : String) (v : PyVal) :
    lookupKey (setKey d k v) k = some v := by
  induction d with
  | nil => simp [setKey, lookupKey]
  | cons hd tl ih =>
      obtain ⟨k', w⟩ := hd
      by_cases h : k' = k <;> simp [setKey, lookupKey, h, ih]

theorem lookupKey_setKey_ne (d : PyDict) (k k' : String) (v : PyVal)
    (h : k ≠ k') : lookupKey (setKey d k v) k' = lookupKey d k' := by
  induction d with
  | nil => simp [setKey, lookupKey, h]
  | cons hd tl ih =>
      obtain ⟨k₀, w⟩ := hd
      by_cases h0 : k₀ = k
      · subst h0; simp [setKey, lookupKey, h]
      · simp [setKey, lookupKey, h0, ih]

theorem dictKeys_setKey (d : PyDict) (k : String) (v : PyVal) :
    dictKeys (setKey d k v) = if k ∈ dictKeys d then dictKeys d else dictKeys d ++ [k] := by
  induction d with
  | nil => simp [setKey, dictKeys]
  | cons hd tl ih =>
      obtain ⟨k₀, w⟩ := hd
      by_cases h0 : k₀ = k
      · subst h0; simp [setKey, dictKeys]
      · simp only [setKey, if_neg h0, dictKeys, List.map_cons] at ih ⊢
        rw [ih]
        by_cases hm : k ∈ List.map Prod.fst tl <;>
          simp [hm, Ne.symm h0]

theorem lookupKey_eq_none_iff (d : PyDict) (k : String) :
    lookupKey d k = none ↔ k ∉ dictKeys d := by
  induction d with
  | nil => simp [lookupKey, dictKeys]
  | cons hd tl ih =>
      obtain ⟨k₀, w⟩ := hd
      by_cases h0 : k₀ = k
      · subst h0
        simp [lookupKey, dictKeys]
      · have hk : dictKeys ((k₀, w) :: tl) = k₀ :: dictKeys tl := rfl
        rw [hk]
        simp only [lookupKey, if_neg h0, List.mem_cons, ih]
        constructor
        · rintro hnot (h | h)
          · exact h0 h.symm
          · exact hnot h
        · intro hnot h
          exact hnot (Or.inr h)

theorem lookupKey_isSome_iff (d : PyDict) (k : String) :
    (lookupKey d k).isSome ↔ k ∈ dictKeys d := by
  rcases h : lookupKey d k with _ | v
  · simpa using (lookupKey_eq_none_iff d k).mp h
  · simp only [Option.isSome_some, true_iff]
    by_contra hm
    rw [(lookupKey_eq_none_iff d k).mpr hm] at h
    exact Option.noConfusion h

theorem lookupKey_append_of_notin (d e : PyDict) (k : String)
    (h : k ∉ dictKeys d) : lookupKey (d ++ e) k = lookupKey e k := by
  induction d with
  | nil => simp
  | cons hd tl ih =>
      obtain ⟨k₀, w⟩ := hd
      simp only [dictKeys, List.map_cons, List.mem_cons] at h
      push_neg at h
      have h1 : ¬ k₀ = k := fun hk => h.1 hk.symm
      simp [lookupKey, h1, ih (by simpa [dictKeys] using h.2)]

theorem lookupKey_append_of_isSome (d e : PyDict) (k : String)
    (h : k ∈ dictKeys d) : lookupKey (d ++ e) k = lookupKey d k := by
  induction d with
  | nil => simp [dictKeys] at h
  | cons hd tl ih =>
      obtain ⟨k₀, w⟩ := hd
      by_cases h0 : k₀ = k
      · simp [lookupKey, h0]
      · simp only [dictKeys, List.map_cons, List.mem_cons] at h
        rcases h with h | h
        · exact absurd h.symm h0
        · simp [lookupKey, h0, ih (by simpa [dictKeys] using h)]

theorem lookupKey_mem_of_nodup (d : PyDict) (k : String) (v : PyVal)
    (hnd : (dictKeys d).Nodup) (hmem : (k, v) ∈ d) : lookupKey d k = some v := by
  induction d with
  | nil => simp at hmem
  | cons hd tl ih =>
      obtain ⟨k₀, w⟩ := hd
      simp only [dictKeys, List.map_cons, List.nodup_cons] at hnd
      rcases List.mem_cons.mp hmem with h | h
      · cases h
        simp [lookupKey]
      · have hk : k₀ ≠ k := by
          rintro rfl
          exact hnd.1 (by simpa [dictKeys] using List.mem_map_of_mem Prod.fst h)
        simp [lookupKey, hk, ih (by simpa [dictKeys] using hnd.2) h]

/-!
### Unfolding and locality lemmas for `deep_update`
-/

theorem deep_update_nil (base : PyDict) : deep_update base [] = (base, false) := by
  simp [deep_update]

theorem deep_update_cons (base : PyDict) (k : String) (v : PyVal) (rest : PyDict) :
    deep_update base ((k, v) :: rest) =
      if (update_key base k v).2 then ((update_key base k v).1, true)
      else deep_update (update_key base k v).1 rest := by
  rw [deep_update]

theorem update_key_of_none (base : PyDict) (k : String) (v : PyVal)
    (h : lookupKey base k = none) :
    update_key base k v = (base ++ [(k, v)], false) := by
  rw [update_key, h]

theorem update_key_of_some (base : PyDict) (k : String) (v bv : PyVal)
    (h : lookupKey base k = some bv) :
    update_key base k v = (setKey base k (merge_value bv v).1, (merge_value bv v).2) := by
  rw [update_key, h]

theorem update_key_fst_lookup_self (base : PyDict) (k : String) (v : PyVal) :
    lookupKey (update_key base k v).1 k = some (merge_value_at (lookupKey base k) v).1 := by
  rcases h : lookupKey base k with _ | bv
  · rw [update_key_of_none _ _ _ h]
    simp only [merge_value_at]
    rw [lookupKey_append_of_notin _ _ _ ((lookupKey_eq_none_iff base k).mp h)]
    simp [lookupKey]
  · rw [update_key_of_some _ _ _ _ h]
    simp only [merge_value_at]
    exact lookupKey_setKey_self ..

theorem update_key_fst_lookup_ne (base : PyDict) (k k' : String) (v : PyVal)
    (h : k ≠ k') : lookupKey (update_key base k v).1 k' = lookupKey base k' := by
  rcases hb : lookupKey base k with _ | bv
  · rw [update_key_of_none _ _ _ hb]
    by_cases hmem : k' ∈ dictKeys base
    · exact lookupKey_append_of_isSome _ _ _ hmem
    · have hk' : lookupKey base k' = none := (lookupKey_eq_none_iff base k').mpr hmem
      rw [lookupKey_append_of_notin _ _ _ hmem, hk']
      simp [lookupKey, h]
  · rw [update_key_of_some _ _ _ _ hb]
    exact lookupKey_setKey_ne _ _ _ _ h

theorem update_key_snd (base : PyDict) (k : String) (v : PyVal) :
    (update_key base k v).2 = (merge_value_at (lookupKey base k) v).2 := by
  rcases h : lookupKey base k with _ | bv
  · rw [update_key_of_none _ _ _ h]; simp [merge_value_at]
  · rw [update_key_of_some _ _ _ _ h]; simp [merge_value_at]

theorem dictKeys_update_key (base : PyDict) (k : String) (v : PyVal) :
    dictKeys (update_key base k v).1 =
      if k ∈ dictKeys base then dictKeys base else dictKeys base ++ [k] := by
  rcases h : lookupKey base k with _ | bv
  · have hk : k ∉ dictKeys base := (lookupKey_eq_none_iff base k).mp h
    rw [update_key_of_none _ _ _ h, if_neg hk]
    simp [dictKeys]
  · have hk : k ∈ dictKeys base := by
      rw [← lookupKey_isSome_iff]
      simp [h]
    rw [update_key_of_some _ _ _ _ h, if_pos hk]
    rw [show (setKey base k (merge_value bv v).1, (merge_value bv v).2).1
        = setKey base k (merge_value bv v).1 from rfl]
    rw [dictKeys_setKey]
    exact if_pos hk

theorem dictKeys_deep_update (u base : PyDict) :
    ∀ k ∈ dictKeys base, k ∈ dictKeys (deep_update base u).1 := by
  induction u generalizing base with
  | nil => intro k hk; rw [deep_update_nil]; exact hk
  | cons hd rest ih =>
      obtain ⟨k₀, v₀⟩ := hd
      intro k hk
      rw [deep_update_cons]
      have hstep : k ∈ dictKeys (update_key base k₀ v₀).1 := by
        rw [dictKeys_update_key]
        split
        · exact hk
        · exact List.mem_append_left _ hk
      split
      · exact hstep
      · exact ih _ k hstep

theorem nodup_dictKeys_update_key (base : PyDict) (k : String) (v : PyVal)
    (h : (dictKeys base).Nodup) : (dictKeys (update_key base k v).1).Nodup := by
  rw [dictKeys_update_key]
  split
  · exact h
  · next hk =>
      rw [List.nodup_append]
      refine ⟨h, List.nodup_singleton _, ?_⟩
      intro a ha hb
      rw [List.mem_singleton] at hb
      exact hk (hb ▸ ha)

theorem nodup_dictKeys_deep_update (u base : PyDict)
    (h : (dictKeys base).Nodup) : (dictKeys (deep_update base u).1).Nodup := by
  induction u generalizing base with
  | nil => rw [deep_update_nil]; exact h
  | cons hd rest ih =>
      obtain ⟨k₀, v₀⟩ := hd
      rw [deep_update_cons]
      split
      · exact nodup_dictKeys_update_key _ _ _ h
      · exact ih _ (nodup_dictKeys_update_key _ _ _ h)

theorem lookupKey_deep_update (u base : PyDict)
    (hnd : (dictKeys u).Nodup) (hok : (deep_update base u).2 = false) (key : String) :
    lookupKey (deep_update base u).1 key =
      match lookupKey u key with
      | none => lookupKey base key
      | some uv => some (merge_value_at (lookupKey base key) uv).1 := by
  induction u generalizing base with
  | nil => rw [deep_update_nil]; simp [lookupKey]
  | cons hd rest ih =>
      obtain ⟨k₀, v₀⟩ := hd
      rw [deep_update_cons] at hok ⊢
      rcases herr : (update_key base k₀ v₀).2 with _ | _
      · simp only [herr, Bool.false_eq_true, if_false] at hok ⊢
        simp only [dictKeys, List.map_cons, List.nodup_cons] at hnd
        have hk₀ : k₀ ∉ dictKeys rest := by simpa [dictKeys] using hnd.1
        have ihr := ih _ (by simpa [dictKeys] using hnd.2) hok
        by_cases hkey : k₀ = key
        · subst hkey
          have hrest : lookupKey rest k₀ = none := (lookupKey_eq_none_iff rest k₀).mpr hk₀
          rw [ihr, hrest]
          simp only [lookupKey, if_pos rfl]
          exact update_key_fst_lookup_self ..
        · rw [ihr]
          have hbase : lookupKey (update_key base k₀ v₀).1 key = lookupKey base key :=
            update_key_fst_lookup_ne _ _ _ _ hkey
          simp only [lookupKey, if_neg hkey]
          rcases lookupKey rest key with _ | uv <;> simp [hbase]
      · simp [herr] at hok

theorem deep_update_merge_err (u base : PyDict)
    (hnd : (dictKeys u).Nodup) (hok : (deep_update base u).2 = false)
    (key : String) (uv : PyVal) (hmem : lookupKey u key = some uv) :
    (merge_value_at (lookupKey base key) uv).2 = false := by
  induction u generalizing base with
  | nil => simp [lookupKey] at hmem
  | cons hd rest ih =>
      obtain ⟨k₀, v₀⟩ := hd
      rw [deep_update_cons] at hok
      rcases herr : (update_key base k₀ v₀).2 with _ | _
      · simp only [herr, Bool.false_eq_true, if_false] at hok
        simp only [dictKeys, List.map_cons, List.nodup_cons] at hnd
        by_cases hkey : k₀ = key
        · subst hkey
          have huv : v₀ = uv := by simpa [lookupKey] using hmem
          subst huv
          rw [← update_key_snd]
          exact herr
        · simp only [lookupKey, if_neg hkey] at hmem
          have := ih _ (by simpa [dictKeys] using hnd.2) hok hmem
          rwa [update_key_fst_lookup_ne _ _ _ _ hkey] at this
      · simp [herr] at hok

/-!
### Claim C10 — `deep_update` never deletes keys
-/

/-- C10: `deep_update` never deletes keys from the base report: every key
present in `base_dict` before the call is still present after it, whether or
not an exception escapes mid-merge (the model's first component is the
in-place-updated `base_dict`); and a sub-dictionary that is merged rather
than replaced becomes exactly the `deep_update` of the two sub-dictionaries,
so key preservation holds recursively by the first conjunct. -/
theorem C10_deep_update_never_deletes (base u : PyDict) :
    (∀ k, k ∈ dictKeys base → k ∈ dictKeys (deep_update base u).1) ∧
    (∀ k bd ud, (dictKeys u).Nodup → (deep_update base u).2 = false →
      lookupKey base k = some (.pdict bd) → lookupKey u k = some (.pdict ud) →
      lookupKey (deep_update base u).1 k = some (.pdict (deep_update bd ud).1)) := by
  constructor
  · exact fun k => dictKeys_deep_update u base k
  · intro k bd ud hnd hok hb hu
    rw [lookupKey_deep_update u base hnd hok k, hu, hb]
    simp [merge_value_at, merge_value]

/-- Witness for C10 at a concrete report pair. -/
theorem C10_deep_update_never_deletes_witness :
    "z" ∈ dictKeys (deep_update
        [("a", .pdict [("x", .pint 1)]), ("z", .pint 5)]
        [("a", .pdict [("y", .pint 2)]), ("b", .pstr "s")]).1 ∧
    lookupKey (deep_update
        [("a", .pdict [("x", .pint 1)]), ("z", .pint 5)]
        [("a", .pdict [("y", .pint 2)]), ("b", .pstr "s")]).1 "a"
      = some (.pdict (deep_update [("x", .pint 1)] [("y", .pint 2)]).1) := by
  have h := C10_deep_update_never_deletes
      [("a", .pdict [("x", .pint 1)]), ("z", .pint 5)]
      [("a", .pdict [("y", .pint 2)]), ("b", .pstr "s")]
  refine ⟨h.1 "z" (by simp [dictKeys]), h.2 "a" _ _ ?_ ?_ rfl rfl⟩
  · simp [dictKeys]
  · simp [deep_update, update_key, merge_value, lookupKey, setKey]

/-!
### Lemmas about the skip/rerun filter
-/

theorem countQ_remove_first_self (a : ℚ) (l : List ℚ) :
    countQ a (remove_first a l) = countQ a l - 1 := by
  induction l with
  | nil => simp [remove_first, countQ]
  | cons x xs ih =>
      by_cases hx : x = a
      · subst hx
        simp [remove_first, countQ, List.countP_cons]
      · rw [remove_first, if_neg hx]
        simp only [countQ, List.countP_cons] at ih ⊢
        simp only [hx, decide_eq_true_eq, if_false, ih]
        omega

theorem countQ_remove_first_ne (a b : ℚ) (l : List ℚ) (h : a ≠ b) :
    countQ a (remove_first b l) = countQ a l := by
  induction l with
  | nil => simp [remove_first]
  | cons x xs ih =>
      have hba : ¬ b = a := fun hh => h hh.symm
      by_cases hx : x = b
      · subst hx
        simp [remove_first, countQ, List.countP_cons, hba]
      · rw [remove_first, if_neg hx]
        simp only [countQ, List.countP_cons] at ih ⊢
        rw [ih]

theorem filter_step_of_clean (ckpt : ℚ → CkptFile) (st : FilterState) (aoa : ℚ)
    (d : PyDict) (ff : PyVal)
    (hr : readFailFlag (ckpt aoa) = some (d, ff)) (hz : eqZeroPy ff = true) :
    filter_step ckpt st aoa =
      ⟨remove_first aoa st.filtered, st.skipped ++ [aoa],
        setKey st.skippedInfo (aoaKey aoa) (.pdict (skipMetrics d))⟩ := by
  simp [filter_step, hr, hz]

theorem filter_step_of_unclean (ckpt : ℚ → CkptFile) (st : FilterState) (aoa : ℚ)
    (h : cleanCkpt (ckpt aoa) = false) : filter_step ckpt st aoa = st := by
  unfold filter_step
  rcases hr : readFailFlag (ckpt aoa) with _ | ⟨d, ff⟩
  · rfl
  · have hz : eqZeroPy ff = false := by
      unfold cleanCkpt at h
      rw [hr] at h
      exact h
    simp [hz]

theorem filter_step_filtered_cases (ckpt : ℚ → CkptFile) (st : FilterState) (b : ℚ) :
    (filter_step ckpt st b).filtered = st.filtered ∨
    ((filter_step ckpt st b).filtered = remove_first b st.filtered ∧
      cleanCkpt (ckpt b) = true) := by
  unfold filter_step cleanCkpt
  rcases hr : readFailFlag (ckpt b) with _ | ⟨d, ff⟩
  · exact Or.inl rfl
  · rcases hz : eqZeroPy ff with _ | _
    · simp [hz]
    · simp [hz]

theorem filter_step_skippedInfo_cases (ckpt : ℚ → CkptFile) (st : FilterState) (b : ℚ) :
    (filter_step ckpt st b).skippedInfo = st.skippedInfo ∨
    ∃ d ff, readFailFlag (ckpt b) = some (d, ff) ∧ eqZeroPy ff = true ∧
      (filter_step ckpt st b).skippedInfo
        = setKey st.skippedInfo (aoaKey b) (.pdict (skipMetrics d)) := by
  unfold filter_step
  rcases hr : readFailFlag (ckpt b) with _ | ⟨d, ff⟩
  · exact Or.inl rfl
  · rcases hz : eqZeroPy ff with _ | _
    · simp [hz]
    · exact Or.inr ⟨d, ff, rfl, hz, by simp [hz]⟩

theorem countQ_foldl_clean (ckpt : ℚ → CkptFile) (aoa : ℚ)
    (hclean : cleanCkpt (ckpt aoa) = true) :
    ∀ (todo : List ℚ) (st : FilterState),
      countQ aoa st.filtered = countQ aoa todo →
      countQ aoa ((todo.foldl (filter_step ckpt) st).filtered) = 0 := by
  intro todo
  induction todo with
  | nil =>
      intro st h
      rw [List.foldl_nil, h]
      simp [countQ]
  | cons b rest ih =>
      intro st h
      rw [List.foldl_cons]
      by_cases hb : b = aoa
      · subst hb
        obtain ⟨d, ff, hr, hz⟩ : ∃ d ff, readFailFlag (ckpt b) = some (d, ff) ∧ eqZeroPy ff = true := by
          unfold cleanCkpt at hclean
          rcases hr : readFailFlag (ckpt b) with _ | ⟨d, ff⟩
          · rw [hr] at hclean; exact absurd hclean (by simp)
          · rw [hr] at hclean; exact ⟨d, ff, rfl, hclean⟩
        apply ih
        rw [filter_step_of_clean ckpt st b d ff hr hz]
        show countQ b (remove_first b st.filtered) = countQ b rest
        rw [countQ_remove_first_self, h]
        simp [countQ, List.countP_cons]
      · apply ih
        rcases filter_step_filtered_cases ckpt st b with hc | ⟨hc, _⟩
        · rw [hc, h]
          simp [countQ, List.countP_cons, hb]
        · rw [hc, countQ_remove_first_ne _ _ _ (fun hh => hb hh.symm), h]
          simp [countQ, List.countP_cons, hb]

theorem countQ_foldl_unclean (ckpt : ℚ → CkptFile) (aoa : ℚ)
    (hfail : cleanCkpt (ckpt aoa) = false) :
    ∀ (todo : List ℚ) (st : FilterState),
      countQ aoa ((todo.foldl (filter_step ckpt) st).filtered) = countQ aoa st.filtered := by
  intro todo
  induction todo with
  | nil => intro st; rfl
  | cons b rest ih =>
      intro st
      rw [List.foldl_cons, ih]
      rcases filter_step_filtered_cases ckpt st b with hc | ⟨hc, hcl⟩
      · rw [hc]
      · have hb : aoa ≠ b := by
          rintro rfl
          rw [hcl] at hfail
          exact Bool.noConfusion hfail
        rw [hc, countQ_remove_first_ne _ _ _ hb]

theorem skippedInfo_lookup_clean (ckpt : ℚ → CkptFile) (aoa : ℚ) (d : PyDict) (ff : PyVal)
    (hr : readFailFlag (ckpt aoa) = some (d, ff)) (hz : eqZeroPy ff = true) :
    ∀ (todo : List ℚ) (st : FilterState),
      (∀ b ∈ todo, aoaKey b = aoaKey aoa → b = aoa) →
      (aoa ∈ todo ∨ lookupKey st.skippedInfo (aoaKey aoa) = some (.pdict (skipMetrics d))) →
      lookupKey ((todo.foldl (filter_step ckpt) st).skippedInfo) (aoaKey aoa)
        = some (.pdict (skipMetrics d)) := by
  intro todo
  induction todo with
  | nil =>
      intro st _ hd
      rcases hd with hd | hd
      · simp at hd
      · exact hd
  | cons b rest ih =>
      intro st hinj hd
      rw [List.foldl_cons]
      by_cases hb : b = aoa
      · subst hb
        apply ih _ (fun c hc => hinj c (List.mem_cons_of_mem _ hc))
        right
        rw [filter_step_of_clean ckpt st b d ff hr hz]
        exact lookupKey_setKey_self ..
      · rcases hd with hd | hd
        · rcases List.mem_cons.mp hd with hd | hd
          · exact absurd hd.symm hb
          · exact ih _ (fun c hc => hinj c (List.mem_cons_of_mem _ hc)) (Or.inl hd)
        · apply ih _ (fun c hc => hinj c (List.mem_cons_of_mem _ hc))
          right
          rcases filter_step_skippedInfo_cases ckpt st b with hc | ⟨d', ff', _, _, hc⟩
          · rw [hc]; exact hd
          · rw [hc]
            have hkne : aoaKey b ≠ aoaKey aoa := fun he => hb (hinj b (List.mem_cons_self ..) he)
            rw [lookupKey_setKey_ne _ _ _ _ hkne]
            exact hd

theorem lookup_foldl_setKey_of_notin (info base : PyDict) (key : String)
    (h : key ∉ dictKeys info) :
    lookupKey (info.foldl (fun acc kv => setKey acc kv.1 kv.2) base) key
      = lookupKey base key := by
  induction info generalizing base with
  | nil => rfl
  | cons kv rest ih =>
      obtain ⟨k₀, v₀⟩ := kv
      simp only [dictKeys, List.map_cons, List.mem_cons] at h
      push_neg at h
      rw [List.foldl_cons, ih _ (by simpa [dictKeys] using h.2)]
      exact lookupKey_setKey_ne _ _ _ _ (fun he => h.1 he.symm)

theorem lookup_foldl_setKey (info base : PyDict) (key : String) (v : PyVal)
    (hnd : (dictKeys info).Nodup) (h : lookupKey info key = some v) :
    lookupKey (info.foldl (fun acc kv => setKey acc kv.1 kv.2) base) key = some v := by
  induction info generalizing base with
  | nil => simp [lookupKey] at h
  | cons kv rest ih =>
      obtain ⟨k₀, v₀⟩ := kv
      simp only [dictKeys, List.map_cons, List.nodup_cons] at hnd
      rw [List.foldl_cons]
      by_cases hk : k₀ = key
      · subst hk
        have hv : v₀ = v := by simpa [lookupKey] using h
        subst hv
        rw [lookup_foldl_setKey_of_notin _ _ _ (by simpa [dictKeys] using hnd.1)]
        exact lookupKey_setKey_self ..
      · simp only [lookupKey, if_neg hk] at h
        exact ih _ (by simpa [dictKeys] using hnd.2) h

theorem nodup_dictKeys_setKey (d : PyDict) (k : String) (v : PyVal)
    (h : (dictKeys d).Nodup) : (dictKeys (setKey d k v)).Nodup := by
  rw [dictKeys_setKey]
  split
  · exact h
  · next hk =>
      rw [List.nodup_append]
      refine ⟨h, List.nodup_singleton _, ?_⟩
      intro a ha hb
      rw [List.mem_singleton] at hb
      exact hk (hb ▸ ha)

theorem nodup_skippedInfo_foldl (ckpt : ℚ → CkptFile) (todo : List ℚ) :
    ∀ st : FilterState, (dictKeys st.skippedInfo).Nodup →
      (dictKeys ((todo.foldl (filter_step ckpt) st).skippedInfo)).Nodup := by
  induction todo with
  | nil => intro st h; exact h
  | cons b rest ih =>
      intro st h
      rw [List.foldl_cons]
      apply ih
      rcases filter_step_skippedInfo_cases ckpt st b with hc | ⟨d, ff, _, _, hc⟩
      · rw [hc]; exact h
      · rw [hc]; exact nodup_dictKeys_setKey _ _ _ h

/-!
### Claim C1 — skip correctness
-/

/-- C1: a condition unit whose stored checkpoint record exists and has
`fail_flag` equal to 0 is never put into the dispatch payload (the filtered
list handed to the subprocess or in-process solver), while its stored
`cl`/`cd`/`wall_time` metrics are kept in the level's results. (`hinj` says
the string keys `f"aoa_{a}"` of the listed condition values do not collide,
which holds for any actual list of distinct floats.) -/
theorem C1_skip_correctness (ckpt : ℚ → CkptFile) (solver : List ℚ → PyDict)
    (aoaList : List ℚ) (aoa : ℚ) (d : PyDict) (ff : PyVal)
    (hmem : aoa ∈ aoaList)
    (hrec : readFailFlag (ckpt aoa) = some (d, ff))
    (hflag : eqZeroPy ff = true)
    (hinj : ∀ b ∈ aoaList, aoaKey b = aoaKey aoa → b = aoa) :
    (∀ payload, dispatch_payload ckpt aoaList = some payload → aoa ∉ payload) ∧
    lookupKey (level_results solver ckpt aoaList) (aoaKey aoa)
      = some (.pdict (skipMetrics d)) := by
  have hclean : cleanCkpt (ckpt aoa) = true := by
    unfold cleanCkpt
    rw [hrec]
    exact hflag
  have hcount : countQ aoa (filter_aoa_loop ckpt aoaList).filtered = 0 :=
    countQ_foldl_clean ckpt aoa hclean aoaList ⟨aoaList, [], []⟩ rfl
  constructor
  · intro payload hpay hmem'
    have hpayload : payload = (filter_aoa_loop ckpt aoaList).filtered := by
      unfold dispatch_payload at hpay
      by_cases hne : (filter_aoa_loop ckpt aoaList).filtered ≠ []
      · simp only [if_pos hne, Option.some.injEq] at hpay
        exact hpay.symm
      · simp only [if_neg hne] at hpay
        exact Option.noConfusion hpay
    subst hpayload
    have := List.countP_eq_zero.mp hcount aoa hmem'
    simp at this
  · have hinfo : lookupKey ((filter_aoa_loop ckpt aoaList).skippedInfo) (aoaKey aoa)
        = some (.pdict (skipMetrics d)) :=
      skippedInfo_lookup_clean ckpt aoa d ff hrec hflag aoaList ⟨aoaList, [], []⟩
        hinj (Or.inl hmem)
    have hnd : (dictKeys ((filter_aoa_loop ckpt aoaList).skippedInfo)).Nodup :=
      nodup_skippedInfo_foldl ckpt aoaList ⟨aoaList, [], []⟩ (by simp [dictKeys])
    unfold level_results
    exact lookup_foldl_setKey _ _ _ _ hnd hinfo

/-- Witness for C1: two condition values, one with a clean checkpoint. -/
theorem C1_skip_correctness_witness :
    (∀ payload,
      dispatch_payload
        (fun a => if a = 2 then
            .record (.pdict [("fail_flag", .pint 0), ("cl", .pnum (41/100)),
              ("cd", .pnum (3/250)), ("wall_time", .pstr "1.00 sec")])
          else .absent) [2, 4] = some payload → (2:ℚ) ∉ payload) ∧
    lookupKey (level_results (fun _ => [])
        (fun a => if a = 2 then
            .record (.pdict [("fail_flag", .pint 0), ("cl", .pnum (41/100)),
              ("cd", .pnum (3/250)), ("wall_time", .pstr "1.00 sec")])
          else .absent) [2, 4]) (aoaKey 2)
      = some (.pdict (skipMetrics [("fail_flag", .pint 0), ("cl", .pnum (41/100)),
          ("cd", .pnum (3/250)), ("wall_time", .pstr "1.00 sec")])) := by
  apply C1_skip_correctness _ _ _ _ _ (.pint 0)
  · simp
  · rfl
  · rfl
  · intro b hb he
    rcases List.mem_cons.mp hb with hb | hb
    · exact hb
    · exfalso
      rcases List.mem_cons.mp hb with hb | hb
      · subst hb
        exact absurd he (by decide)
      · simp at hb

/-!
### Claim C2 — retry on failure
-/

/-- C2: a condition unit whose checkpoint record is absent, unreadable or
corrupt (any exception while reading it — including a parsed record without
a `fail_flag`), or whose `fail_flag` is nonzero (e.g. 1), is always put into
the next dispatch payload for its refinement level; all of these cases take
the same `except: continue` path, so an unreadable or corrupt record behaves
exactly like an absent one instead of aborting the sweep. -/
theorem C2_retry_on_failure (ckpt : ℚ → CkptFile) (aoaList : List ℚ) (aoa : ℚ)
    (hmem : aoa ∈ aoaList)
    (hfail : ckpt aoa = .absent ∨ ckpt aoa = .unreadable ∨
      readFailFlag (ckpt aoa) = none ∨
      ∃ d ff, readFailFlag (ckpt aoa) = some (d, ff) ∧ eqZeroPy ff = false) :
    ∃ payload, dispatch_payload ckpt aoaList = some payload ∧ aoa ∈ payload := by
  have hclean : cleanCkpt (ckpt aoa) = false := by
    unfold cleanCkpt
    rcases hfail with h | h | h | ⟨d, ff, h, hz⟩
    · rw [h]
      rfl
    · rw [h]
      rfl
    · rw [h]
    · rw [h]
      exact hz
  have hc := countQ_foldl_unclean ckpt aoa hclean aoaList ⟨aoaList, [], []⟩
  have hpos : 0 < countQ aoa ((filter_aoa_loop ckpt aoaList).filtered) := by
    unfold filter_aoa_loop
    rw [hc]
    show 0 < countQ aoa aoaList
    unfold countQ
    rw [List.countP_pos_iff]
    exact ⟨aoa, hmem, by simp⟩
  have hmemf : aoa ∈ (filter_aoa_loop ckpt aoaList).filtered := by
    unfold countQ at hpos
    rw [List.countP_pos_iff] at hpos
    obtain ⟨b, hb, hbe⟩ := hpos
    simp only [decide_eq_true_eq] at hbe
    exact hbe ▸ hb
  have hne : (filter_aoa_loop ckpt aoaList).filtered ≠ [] := by
    intro h
    rw [h] at hmemf
    simp at hmemf
  refine ⟨(filter_aoa_loop ckpt aoaList).filtered, ?_, hmemf⟩
  unfold dispatch_payload
  simp only [if_pos hne]

/-- Witness for C2: one condition value with a `fail_flag = 1` record. -/
theorem C2_retry_on_failure_witness :
    ∃ payload, dispatch_payload (fun _ => .record (.pdict [("fail_flag", .pint 1)])) [3]
      = some payload ∧ (3:ℚ) ∈ payload := by
  apply C2_retry_on_failure _ _ _ (by simp)
  exact Or.inr (Or.inr (Or.inr ⟨[("fail_flag", .pint 1)], .pint 1, rfl, rfl⟩))

/-!
### Claim C6 — level-table deduplication and ordering
-/

theorem dedup_keep_last_subset {α : Type} (l : List (ℚ × α)) (r : ℚ × α)
    (h : r ∈ dedup_keep_last l) : r ∈ l := by
  induction l with
  | nil => simpa [dedup_keep_last] using h
  | cons x xs ih =>
      simp only [dedup_keep_last] at h
      split at h
      · exact List.mem_cons_of_mem _ (ih h)
      · rcases List.mem_cons.mp h with h | h
        · subst h
          exact List.mem_cons_self ..
        · exact List.mem_cons_of_mem _ (ih h)

theorem mem_dedup_keep_last {α : Type} (l : List (ℚ × α)) (r : ℚ × α) :
    r ∈ dedup_keep_last l ↔
      (l.filter (fun s => decide (s.1 = r.1))).getLast? = some r := by
  induction l with
  | nil => simp [dedup_keep_last]
  | cons x xs ih =>
      simp only [dedup_keep_last]
      by_cases hx : x.1 = r.1
      · have hfil : (x :: xs).filter (fun s => decide (s.1 = r.1))
            = x :: xs.filter (fun s => decide (s.1 = r.1)) := by
          simp [List.filter_cons, hx]
        split
        · next hdup =>
            obtain ⟨s, hs, hse⟩ := List.any_eq_true.mp hdup
            simp only [decide_eq_true_eq] at hse
            have hsf : s ∈ xs.filter (fun s => decide (s.1 = r.1)) :=
              List.mem_filter.mpr ⟨hs, by simp [hse, hx]⟩
            rw [hfil]
            rcases hxs : xs.filter (fun s => decide (s.1 = r.1)) with _ | ⟨c, cs⟩
            · rw [hxs] at hsf; simp at hsf
            · rw [hxs, List.getLast?_cons_cons]
              rw [hxs] at ih
              exact ih
        · next hdup =>
            have hxsf : xs.filter (fun s => decide (s.1 = r.1)) = [] := by
              rw [List.filter_eq_nil_iff]
              intro s hs
              simp only [decide_eq_true_eq]
              intro hse
              apply hdup
              rw [List.any_eq_true]
              exact ⟨s, hs, by simp [hse, hx.symm]⟩
            rw [hfil, hxsf]
            simp only [List.getLast?_singleton, Option.some.injEq, List.mem_cons]
            constructor
            · rintro (rfl | h)
              · rfl
              · exfalso
                have hrx : r ∈ xs := dedup_keep_last_subset _ _ h
                have : r ∈ xs.filter (fun s => decide (s.1 = r.1)) :=
                  List.mem_filter.mpr ⟨hrx, by simp⟩
                rw [hxsf] at this
                simp at this
            · rintro rfl
              exact Or.inl rfl
      · have hfil : (x :: xs).filter (fun s => decide (s.1 = r.1))
            = xs.filter (fun s => decide (s.1 = r.1)) := by
          simp [List.filter_cons, hx]
        rw [hfil]
        split
        · exact ih
        · rw [List.mem_cons]
          constructor
          · rintro (rfl | h)
            · exact absurd rfl hx
            · exact ih.mp h
          · intro h
            exact Or.inr (ih.mpr h)

theorem dedup_keep_last_pairwise {α : Type} (l : List (ℚ × α)) :
    (dedup_keep_last l).Pairwise (fun a b => a.1 ≠ b.1) := by
  induction l with
  | nil => simp [dedup_keep_last]
  | cons x xs ih =>
      simp only [dedup_keep_last]
      split
      · exact ih
      · next hdup =>
          refine List.Pairwise.cons ?_ ih
          intro s hs he
          apply hdup
          rw [List.any_eq_true]
          exact ⟨s, dedup_keep_last_subset _ _ hs, by simp [he.symm]⟩

/-- C6: after merging new rows into a (possibly populated) per-level table,
the persisted table has at most one row per condition value and is sorted
strictly ascending by condition value (first conjunct), and it holds exactly
the rows that are the latest-written row for their condition value in the
concatenation old-rows-then-new-rows (second conjunct). -/
theorem C6_table_dedup_sorted {α : Type} (existing : Option (List (ℚ × α)))
    (newRows : List (ℚ × α)) :
    (append_level_table existing newRows).Pairwise (fun a b => a.1 < b.1) ∧
    ∀ r, r ∈ append_level_table existing newRows ↔
      ((existing.getD [] ++ newRows).filter (fun s => decide (s.1 = r.1))).getLast?
        = some r := by
  constructor
  · have hsorted : (append_level_table existing newRows).Pairwise
        (fun a b : ℚ × α => a.1 ≤ b.1) :=
      List.sorted_insertionSort _ _
    have hperm : List.Perm
        (sort_by_alpha (dedup_keep_last (existing.getD [] ++ newRows)))
        (dedup_keep_last (existing.getD [] ++ newRows)) :=
      List.perm_insertionSort _ _
    have hne : (append_level_table existing newRows).Pairwise
        (fun a b : ℚ × α => a.1 ≠ b.1) := by
      unfold append_level_table
      rw [List.Perm.pairwise_iff (by intro x y h; exact h.symm) hperm]
      exact dedup_keep_last_pairwise _
    exact (hsorted.and hne).imp (fun hab => lt_of_le_of_ne hab.1 hab.2)
  · intro r
    rw [← mem_dedup_keep_last]
    exact (List.perm_insertionSort _ _).mem_iff

/-!
### Claims C8 and C3 — result-marker protocol
-/

theorem isPrefixOf_append_self (l x : List Char) : l.isPrefixOf (l ++ x) = true := by
  induction l with
  | nil => simp [List.isPrefixOf]
  | cons a as ih => simpa [List.isPrefixOf] using ih

theorem findBeforeMarker_append (body : List Char)
    (h : ∀ i < body.length,
      resultMarker.isPrefixOf ((body ++ resultMarker).drop i) = false) :
    findBeforeMarker (body ++ resultMarker) = some body := by
  induction body with
  | nil =>
      show findBeforeMarker resultMarker = some []
      rfl
  | cons c cs ih =>
      have h0 : resultMarker.isPrefixOf (c :: (cs ++ resultMarker)) = false := by
        simpa using h 0 (Nat.succ_pos _)
      rw [List.cons_append, findBeforeMarker, h0]
      simp only [Bool.false_eq_true, if_false]
      rw [ih (fun i hi => by
        have := h (i + 1) (Nat.succ_lt_succ hi)
        rwa [List.cons_append, List.drop_succ_cons] at this)]
      rfl

theorem scan_line_of_not_marker (line : String)
    (h : resultMarker.isPrefixOf line.data = false) : scan_line line = .skip := by
  simp [scan_line, h]

theorem scan_line_of_marker (body : List Char)
    (h : ∀ i < body.length,
      resultMarker.isPrefixOf ((body ++ resultMarker).drop i) = false) :
    scan_line (String.mk (resultMarker ++ (body ++ resultMarker)))
      = .payload (String.mk (stripChars body)) := by
  unfold scan_line
  have hpre : resultMarker.isPrefixOf
      (String.mk (resultMarker ++ (body ++ resultMarker))).data = true :=
    isPrefixOf_append_self ..
  rw [hpre]
  simp only [if_true]
  have hdrop : (String.mk (resultMarker ++ (body ++ resultMarker))).data.drop
      resultMarker.length = body ++ resultMarker := by
    show (resultMarker ++ (body ++ resultMarker)).drop resultMarker.length
      = body ++ resultMarker
    exact List.drop_left ..
  rw [hdrop, findBeforeMarker_append body h]

theorem scan_stdout_of_skips (lines : List String) (acc : Option String)
    (h : ∀ l ∈ lines, resultMarker.isPrefixOf l.data = false) :
    scan_stdout acc lines = (acc, false) := by
  induction lines with
  | nil => rfl
  | cons l rest ih =>
      rw [scan_stdout, scan_line_of_not_marker l (h l (List.mem_cons_self ..))]
      exact ih (fun l' hl' => h l' (List.mem_cons_of_mem _ hl'))

theorem scan_stdout_append_skips (pre rest : List String) (acc : Option String)
    (h : ∀ l ∈ pre, resultMarker.isPrefixOf l.data = false) :
    scan_stdout acc (pre ++ rest) = scan_stdout acc rest := by
  induction pre with
  | nil => rfl
  | cons l pre' ih =>
      rw [List.cons_append, scan_stdout,
        scan_line_of_not_marker l (h l (List.mem_cons_self ..))]
      exact ih (fun l' hl' => h l' (List.mem_cons_of_mem _ hl'))

/-- C8: when the worker's stdout contains exactly one marker line
`::RESULT::<payload>::RESULT::` among arbitrary non-marker lines, the
subprocess executor returns precisely `json.loads` applied to that line's
stripped payload — nothing is derived from any other line. (`hbody` states
that the closing delimiter after `body` is its first occurrence, i.e. the
line carries a single marker pair.) -/
theorem C8_result_marker_parsing (loads : String → PyVal) (pre post : List String)
    (body : List Char)
    (hpre : ∀ l ∈ pre, resultMarker.isPrefixOf l.data = false)
    (hpost : ∀ l ∈ post, resultMarker.isPrefixOf l.data = false)
    (hbody : ∀ i < body.length,
      resultMarker.isPrefixOf ((body ++ resultMarker).drop i) = false) :
    run_as_subprocess_result loads
        (pre ++ String.mk (resultMarker ++ (body ++ resultMarker)) :: post)
      = .ok (loads (String.mk (stripChars body))) := by
  have h1 : scan_stdout none
      (pre ++ String.mk (resultMarker ++ (body ++ resultMarker)) :: post)
      = (some (String.mk (stripChars body)), false) := by
    rw [scan_stdout_append_skips _ _ _ hpre, scan_stdout,
      scan_line_of_marker body hbody]
    exact scan_stdout_of_skips _ _ hpost
  unfold run_as_subprocess_result
  rw [h1]

/-- Witness for C8 with the specification's example payload. -/
theorem C8_result_marker_parsing_witness :
    run_as_subprocess_result PyVal.pstr
        (["starting solver"] ++
          String.mk (resultMarker ++
            (("\x7b\"aoa_2.0\":\x7b\"cl\":0.41,\"cd\":0.012\x7d\x7d").data ++ resultMarker)) ::
          ["solver done"])
      = .ok (.pstr "\x7b\"aoa_2.0\":\x7b\"cl\":0.41,\"cd\":0.012\x7d\x7d") := by
  have h := C8_result_marker_parsing PyVal.pstr ["starting solver"] ["solver done"]
      ("\x7b\"aoa_2.0\":\x7b\"cl\":0.41,\"cd\":0.012\x7d\x7d").data
      (by intro l hl; rw [List.mem_singleton] at hl; subst hl; decide)
      (by intro l hl; rw [List.mem_singleton] at hl; subst hl; decide)
      (by decide)
  rw [h]
  rfl

/-- C3 (behaviour at the failing input): when no stdout line starts with the
result marker, `subprocess_result_json` is never assigned, and the final
`json.loads(subprocess_result_json)` raises `UnboundLocalError` — the batch
executor crashes instead of reporting zero new successes. -/
theorem C3_no_marker_unbound_local (loads : String → PyVal) (lines : List String)
    (h : ∀ l ∈ lines, resultMarker.isPrefixOf l.data = false) :
    run_as_subprocess_result loads lines = .error .unboundLocal := by
  unfold run_as_subprocess_result
  rw [scan_stdout_of_skips _ _ h]

/-- Witness for C3's failing-input theorem. -/
theorem C3_no_marker_unbound_local_witness :
    run_as_subprocess_result PyVal.pstr ["solver log line", "all done"]
      = .error .unboundLocal :=
  C3_no_marker_unbound_local PyVal.pstr ["solver log line", "all done"]
    (by intro l hl; fin_cases hl <;> decide)

/-!
### Claim C7 — scheduler job-id parsing
-/

theorem wordsByGo_append_sep (p : Char → Bool) (c : Char) (hc : p c = true)
    (xs : List Char) : ∀ (acc ys : List Char),
    wordsByGo p acc (xs ++ c :: ys) = wordsByGo p acc xs ++ wordsByGo p [] ys := by
  induction xs with
  | nil =>
      intro acc ys
      by_cases ha : acc.isEmpty <;> simp [wordsByGo, hc, ha]
  | cons d ds ih =>
      intro acc ys
      rw [List.cons_append]
      by_cases hd : p d
      · by_cases ha : acc.isEmpty <;> simp [wordsByGo, hd, ha, ih]
      · simp [wordsByGo, hd, ih]

theorem wordsBy_joinLines (p : Char → Bool) (c : Char) (hc : p c = true) :
    ∀ lines : List (List Char),
      wordsBy p (joinLines c lines) = lines.flatMap (wordsBy p)
  | [] => rfl
  | [l] => by simp [joinLines]
  | l :: l' :: rest => by
      have h1 : joinLines c (l :: l' :: rest) = l ++ c :: joinLines c (l' :: rest) := rfl
      have h2 : wordsBy p (l ++ c :: joinLines c (l' :: rest))
          = wordsBy p l ++ wordsBy p (joinLines c (l' :: rest)) :=
        wordsByGo_append_sep p c hc l [] (joinLines c (l' :: rest))
      rw [h1, h2, wordsBy_joinLines p c hc (l' :: rest)]
      simp [List.flatMap_cons]

theorem getLast?_flatMap_words (f : List Char → List (List Char)) :
    ∀ ls : List (List Char),
      (ls.flatMap f).getLast?
        = ((ls.filter (fun l => !((f l).isEmpty))).getLast?).bind
            (fun l => (f l).getLast?) := by
  intro ls
  induction ls with
  | nil => rfl
  | cons l rest ih =>
      rw [List.flatMap_cons, List.getLast?_append]
      rcases hrf : (rest.flatMap f).getLast? with _ | x
      · have hor : Option.or none ((f l).getLast?) = (f l).getLast? := rfl
        rw [hor]
        have hnil : rest.flatMap f = [] := by rwa [List.getLast?_eq_none_iff] at hrf
        have hfl : ∀ l' ∈ rest, f l' = [] := List.flatMap_eq_nil_iff.mp hnil
        have hfilter : rest.filter (fun l => !((f l).isEmpty)) = [] := by
          rw [List.filter_eq_nil_iff]
          intro l' hl'
          simp [hfl l' hl']
        rw [List.filter_cons]
        by_cases hl : (f l).isEmpty
        · simp only [hl, Bool.not_true, Bool.false_eq_true, if_false]
          rw [hfilter]
          have hfe : f l = [] := by rwa [List.isEmpty_iff] at hl
          simp [hfe]
        · simp only [hl, Bool.not_false, if_true]
          rw [hfilter]
          simp
      · have hor : Option.or (some x) ((f l).getLast?) = some x := rfl
        rw [hor]
        have hbind : ((rest.filter (fun l => !((f l).isEmpty))).getLast?).bind
            (fun l => (f l).getLast?) = some x := by rw [← ih, hrf]
        have hfilter_ne : rest.filter (fun l => !((f l).isEmpty)) ≠ [] := by
          intro hfil
          rw [hfil] at hbind
          simp at hbind
        rw [List.filter_cons]
        by_cases hl : (f l).isEmpty
        · simp only [hl, Bool.not_true, Bool.false_eq_true, if_false]
          exact hbind.symm
        · simp only [hl, Bool.not_false, if_true]
          rcases hfe : rest.filter (fun l => !((f l).isEmpty)) with _ | ⟨a, as⟩
          · exact absurd hfe hfilter_ne
          · rw [List.getLast?_cons_cons, ← hfe]
            exact hbind.symm

/-- C7 counterexample: on a standard scheduler acknowledgement such as
`"Submitted batch job 12345"`, the code's parse (`stdout.strip().split()[-1]`)
yields the last token `"12345"`, while the claim's rule — first
whitespace-delimited token of the output's last line — yields `"Submitted"`;
the two disagree, so the claim as stated is false of the code. -/
theorem C7_job_id_counterexample :
    submit_job_id "Submitted batch job 12345" = some "12345" ∧
    spec_first_token_last_line "Submitted batch job 12345" = some "Submitted" ∧
    submit_job_id "Submitted batch job 12345"
      ≠ spec_first_token_last_line "Submitted batch job 12345" :=
  ⟨by decide, by decide, by decide⟩

/-- C7 amended: the submission adapter parses the job identifier as the LAST
whitespace-delimited token of the whole acknowledgement output —
equivalently, the last token of the last line that contains any token
(stated over the output's lines joined by newlines). -/
theorem C7_job_id_parse (lines : List (List Char)) :
    submit_job_id (String.mk (joinLines '\n' lines))
      = (last_token_of_lines lines).map String.mk := by
  unfold submit_job_id last_token_of_lines
  rw [show (String.mk (joinLines '\n' lines)).data = joinLines '\n' lines from rfl]
  rw [wordsBy_joinLines Char.isWhitespace '\n' (by decide) lines]
  rw [getLast?_flatMap_words (wordsBy Char.isWhitespace) lines]

/-!
### Claim C5 — the named-list merge rule of `deep_update`
-/

theorem beq_eq_decide_rat (x y : ℚ) : (x == y) = decide (x = y) := by
  rcases h : decide (x = y) with _ | _
  · simp at h; simp [h]
  · simp at h; simp [h]

theorem beq_eq_decide_str (x y : String) : (x == y) = decide (x = y) := by
  rcases h : decide (x = y) with _ | _
  · simp at h; simp [h]
  · simp at h; simp [h]

theorem hashable_of_nameKey_isSome (v : PyVal)
    (h : (nameKey v).isSome = true) : v.hashable = true := by
  cases v <;> simp_all [nameKey, PyVal.hashable]

theorem nameEq_key (a b : PyVal) (ka kb : ℚ ⊕ String ⊕ Unit)
    (ha : nameKey a = some ka) (hb : nameKey b = some kb) :
    nameEq a b = decide (ka = kb) := by
  cases a <;> cases b <;>
    simp_all [nameKey, nameEq, toRatScalar, beq_eq_decide_rat, beq_eq_decide_str] <;>
    (rw [← ha, ← hb]; simp)

theorem itemKey_isSome_parts (v : PyVal) (h : (itemKey v).isSome = true) :
    ∃ nm k, getName v = some nm ∧ nameKey nm = some k ∧ nm.hashable = true ∧
      itemKey v = some k := by
  rcases hg : getName v with _ | nm
  · rw [itemKey, hg] at h
    simp at h
  · rw [itemKey, hg] at h ⊢
    simp only [Option.some_bind] at h ⊢
    rcases hk : nameKey nm with _ | k
    · rw [hk] at h; simp at h
    · exact ⟨nm, k, rfl, hk, hashable_of_nameKey_isSome nm (by simp [hk]), by simp [hk]⟩

theorem nameMatch_key (a b : PyVal) (ka kb : ℚ ⊕ String ⊕ Unit)
    (ha : itemKey a = some ka) (hb : itemKey b = some kb) :
    nameMatch a b = decide (ka = kb) := by
  obtain ⟨na, ka', hga, hka, _, hia⟩ := itemKey_isSome_parts a (by simp [ha])
  obtain ⟨nb, kb', hgb, hkb, _, hib⟩ := itemKey_isSome_parts b (by simp [hb])
  rw [ha] at hia
  rw [hb] at hib
  have hka' : ka' = ka := by injection hia.symm
  have hkb' : kb' = kb := by injection hib.symm
  have hka2 : nameKey na = some ka := by rw [hka, hka']
  have hkb2 : nameKey nb = some kb := by rw [hkb, hkb']
  rw [nameMatch, hga, hgb]
  simp only [Option.some_bind, Option.map_some', Option.getD_some]
  exact nameEq_key na nb ka kb hka2 hkb2

theorem buildBaseItems_eq_spec (bl : List PyVal) (j : Nat)
    (h : ∀ v ∈ bl, (itemKey v).isSome = true) :
    buildBaseItems bl j = some (baseItemsSpec bl j) := by
  induction bl generalizing j with
  | nil => rfl
  | cons v rest ih =>
      obtain ⟨nm, k, hnm, hk, hh, _⟩ := itemKey_isSome_parts v (h v (List.mem_cons_self ..))
      rw [buildBaseItems, hnm]
      simp only [hh, if_true]
      rw [ih _ (fun v hv' => h v (List.mem_cons_of_mem _ hv'))]
      rw [baseItemsSpec, hnm]
      rfl

theorem filter_baseItemsSpec_nil (bl : List PyVal) (j : Nat) (nm : PyVal)
    (knm : ℚ ⊕ String ⊕ Unit) (hk : nameKey nm = some knm)
    (hw : ∀ v ∈ bl, (itemKey v).isSome = true)
    (hno : ∀ v ∈ bl, itemKey v ≠ some knm) :
    (baseItemsSpec bl j).filter (fun p => nameEq p.1 nm) = [] := by
  induction bl generalizing j with
  | nil => rfl
  | cons v rest ih =>
      obtain ⟨nmv, kv, hgv, hkv, _, hiv⟩ :=
        itemKey_isSome_parts v (hw v (List.mem_cons_self ..))
      rw [baseItemsSpec, hgv]
      simp only [List.filter_cons, Option.getD_some]
      have hne : nameEq nmv nm = false := by
        rw [nameEq_key nmv nm kv knm hkv hk]
        simp only [decide_eq_false_iff_not]
        intro he
        exact hno v (List.mem_cons_self ..) (he ▸ hiv)
      simp only [hne, Bool.false_eq_true, if_false]
      exact ih _ (fun v hv' => hw v (List.mem_cons_of_mem _ hv'))
        (fun v hv' => hno v (List.mem_cons_of_mem _ hv'))

theorem lookupNameIdx_spec_none (bl : List PyVal) (j : Nat) (nm : PyVal)
    (knm : ℚ ⊕ String ⊕ Unit) (hk : nameKey nm = some knm)
    (hw : ∀ v ∈ bl, (itemKey v).isSome = true)
    (hno : ∀ v ∈ bl, itemKey v ≠ some knm) :
    lookupNameIdx (baseItemsSpec bl j) nm = none := by
  rw [lookupNameIdx, filter_baseItemsSpec_nil bl j nm knm hk hw hno]
  rfl

theorem lookupNameIdx_spec_some (bl : List PyVal) (j i : Nat) (nm : PyVal)
    (knm : ℚ ⊕ String ⊕ Unit) (bi : PyVal)
    (hk : nameKey nm = some knm)
    (hw : ∀ v ∈ bl, (itemKey v).isSome = true)
    (hnodup : (bl.map itemKey).Nodup)
    (hi : bl[i]? = some bi) (hbi : itemKey bi = some knm) :
    lookupNameIdx (baseItemsSpec bl j) nm = some (j + i) := by
  induction bl generalizing j i with
  | nil => simp at hi
  | cons v rest ih =>
      obtain ⟨nmv, kv, hgv, hkv, _, hiv⟩ :=
        itemKey_isSome_parts v (hw v (List.mem_cons_self ..))
      simp only [List.map_cons, List.nodup_cons] at hnodup
      rcases i with _ | i'
      · have hvbi : v = bi := by simpa using hi
        subst hvbi
        have hkvk : kv = knm := by
          rw [hiv] at hbi
          injection hbi
        subst hkvk
        have hfil : (baseItemsSpec rest (j + 1)).filter (fun p => nameEq p.1 nm) = [] := by
          apply filter_baseItemsSpec_nil rest (j + 1) nm kv hk
            (fun v hv' => hw v (List.mem_cons_of_mem _ hv'))
          intro w hw' hwk
          exact hnodup.1 (by
            rw [← hiv] at hwk
            exact hwk ▸ List.mem_map_of_mem itemKey hw')
        rw [lookupNameIdx, baseItemsSpec, hgv]
        simp only [List.filter_cons, Option.getD_some]
        have heq : nameEq nmv nm = true := by
          rw [nameEq_key nmv nm kv kv hkv hk]
          simp
        simp only [heq, if_true, hfil]
        rfl
      · have hi' : rest[i']? = some bi := by simpa using hi
        have hkvne : kv ≠ knm := by
          intro he
          apply hnodup.1
          have hmem : bi ∈ rest := List.getElem?_mem hi'
          have : itemKey bi = itemKey v := by rw [hbi, hiv, he]
          exact this ▸ List.mem_map_of_mem itemKey hmem
        rw [lookupNameIdx, baseItemsSpec, hgv]
        simp only [List.filter_cons, Option.getD_some]
        have hne : nameEq nmv nm = false := by
          rw [nameEq_key nmv nm kv knm hkv hk]
          simpa using hkvne
        simp only [hne, Bool.false_eq_true, if_false]
        have := ih (j + 1) i' (fun v hv' => hw v (List.mem_cons_of_mem _ hv'))
          hnodup.2 hi'
        rw [lookupNameIdx] at this
        rw [this]
        congr 1
        omega

theorem getElem?_lt_len {α : Type} (l : List α) (i : Nat) (a : α)
    (h : l[i]? = some a) : i < l.length := by
  by_contra hc
  push_neg at hc
  rw [List.getElem?_eq_none hc] at h
  exact Option.noConfusion h

theorem map_itemKey_pos_inj (bl : List PyVal) (hbn : (bl.map itemKey).Nodup)
    (i j : Nat) (bi bj : PyVal) (k : ℚ ⊕ String ⊕ Unit)
    (hi : bl[i]? = some bi) (hj : bl[j]? = some bj)
    (hki : itemKey bi = some k) (hkj : itemKey bj = some k) : i = j := by
  have hmi : (bl.map itemKey)[i]? = some (some k) := by
    rw [List.getElem?_map, hi]
    simp [hki]
  have hmj : (bl.map itemKey)[j]? = some (some k) := by
    rw [List.getElem?_map, hj]
    simp [hkj]
  exact List.getElem?_inj (getElem?_lt_len _ _ _ hmi) hbn (hmi.trans hmj.symm)

theorem applyMatches_nil_right (bl : List PyVal) : applyMatches bl [] = bl := by
  unfold applyMatches
  simp [List.find?_nil]

theorem applyMatches_snoc_unmatched (bl P : List PyVal) (item : PyVal)
    (h : ∀ bi ∈ bl, nameMatch bi item = false) :
    applyMatches bl (P ++ [item]) = applyMatches bl P := by
  unfold applyMatches
  apply List.map_congr_left
  intro bi hbi
  rw [List.find?_append]
  have hnone : List.find? (fun ui => nameMatch bi ui) [item] = none := by
    simp [List.find?_cons, h bi hbi]
  rw [hnone]
  cases List.find? (fun ui => nameMatch bi ui) P <;> rfl

theorem filterUnmatched_snoc_unmatched (bl P : List PyVal) (item : PyVal)
    (h : ∀ bi ∈ bl, nameMatch bi item = false) :
    filterUnmatched bl (P ++ [item]) = filterUnmatched bl P ++ [item] := by
  unfold filterUnmatched
  rw [List.filter_append]
  have hany : bl.any (fun b => nameMatch b item) = false := by
    rw [List.any_eq_false]
    intro b hb
    simp [h b hb]
  simp [List.filter_cons, hany]

theorem filterUnmatched_snoc_matched (bl P : List PyVal) (item bi : PyVal)
    (hmem : bi ∈ bl) (h : nameMatch bi item = true) :
    filterUnmatched bl (P ++ [item]) = filterUnmatched bl P := by
  unfold filterUnmatched
  rw [List.filter_append]
  have hany : bl.any (fun b => nameMatch b item) = true :=
    List.any_eq_true.mpr ⟨bi, hmem, h⟩
  simp [List.filter_cons, hany]

theorem applyMatches_snoc_matched (bl P : List PyVal) (item : PyVal)
    (i : Nat) (bi : PyVal) (bd ud : PyDict) (k : ℚ ⊕ String ⊕ Unit)
    (hi : bl[i]? = some bi) (hbieq : bi = .pdict bd) (hitem : item = .pdict ud)
    (hbik : itemKey bi = some k) (hik : itemKey item = some k)
    (hbk : ∀ v ∈ bl, (itemKey v).isSome = true)
    (hbn : (bl.map itemKey).Nodup)
    (hPno : ∀ u ∈ P, nameMatch bi u = false) :
    applyMatches bl (P ++ [item])
      = (applyMatches bl P).set i (.pdict (deep_update bd ud).1) := by
  have hlen : i < bl.length := getElem?_lt_len _ _ _ hi
  have hlenP : i < (applyMatches bl P).length := by
    unfold applyMatches
    rw [List.length_map]
    exact hlen
  apply List.ext_getElem?
  intro j
  by_cases hj : j = i
  · subst hj
    rw [List.getElem?_set_self hlenP]
    unfold applyMatches
    rw [List.getElem?_map, hi]
    simp only [Option.map_some']
    congr 1
    have hfindP : List.find? (fun ui => nameMatch bi ui) P = none :=
      List.find?_eq_none.mpr (fun u hu => by simp [hPno u hu])
    have hmatch : nameMatch bi item = true := by
      rw [nameMatch_key bi item k k hbik hik]
      simp
    have hfind1 : List.find? (fun ui => nameMatch bi ui) [item] = some item := by
      simp [List.find?_cons, hmatch]
    rw [List.find?_append, hfindP, hfind1]
    subst hbieq
    subst hitem
    rfl
  · rw [List.getElem?_set_ne (fun he => hj he.symm)]
    unfold applyMatches
    rw [List.getElem?_map, List.getElem?_map]
    rcases hbj : bl[j]? with _ | bj
    · rfl
    · simp only [Option.map_some']
      congr 1
      have hne : nameMatch bj item = false := by
        rcases hkj : itemKey bj with _ | kj
        · have hs := hbk bj (List.getElem?_mem hbj)
          rw [hkj] at hs
          simp at hs
        · rw [nameMatch_key bj item kj k hkj hik]
          simp only [decide_eq_false_iff_not]
          intro he
          exact hj (map_itemKey_pos_inj bl hbn j i bj bi k hbj hi (he ▸ hkj) hbik)
      have hnone : List.find? (fun ui => nameMatch bj ui) [item] = none := by
        simp [List.find?_cons, hne]
      rw [List.find?_append, hnone]
      cases List.find? (fun ui => nameMatch bj ui) P <;> rfl

theorem isDict_exists (v : PyVal) (h : PyVal.isDict v = true) : ∃ d, v = .pdict d := by
  cases v <;> first | exact ⟨_, rfl⟩ | simp [PyVal.isDict] at h

theorem merge_loop_spec_aux (bl : List PyVal)
    (hbd : ∀ v ∈ bl, PyVal.isDict v = true)
    (hbk : ∀ v ∈ bl, (itemKey v).isSome = true)
    (hbn : (bl.map itemKey).Nodup) :
    ∀ (ul P : List PyVal),
      (∀ v ∈ P ++ ul, PyVal.isDict v = true ∧ (itemKey v).isSome = true) →
      ((P ++ ul).map itemKey).Nodup →
      (merge_loop (baseItemsSpec bl 0) (applyMatches bl P ++ filterUnmatched bl P) ul).2
        = false →
      merge_loop (baseItemsSpec bl 0) (applyMatches bl P ++ filterUnmatched bl P) ul
        = (applyMatches bl (P ++ ul) ++ filterUnmatched bl (P ++ ul), false) := by
  intro ul
  induction ul with
  | nil =>
      intro P hwf hnd _
      rw [merge_loop]
      simp
  | cons item rest ih =>
      intro P hwf hnd herr
      have hasc : (P ++ [item]) ++ rest = P ++ item :: rest := by simp
      have hitem := hwf item (by simp)
      obtain ⟨nm, k, hnm, hk, hh, hik⟩ := itemKey_isSome_parts item hitem.2
      obtain ⟨ud, hud⟩ := isDict_exists item hitem.1
      have hdisjP : ∀ u ∈ P, itemKey u ≠ some k := by
        intro u hu hk'
        rw [List.map_append, List.nodup_append] at hnd
        exact hnd.2.2 (hk' ▸ List.mem_map_of_mem itemKey hu)
          (by
            rw [List.map_cons, hik]
            exact List.mem_cons_self ..)
      by_cases hex : ∃ bi ∈ bl, itemKey bi = some k
      · obtain ⟨bi, hbimem, hbik⟩ := hex
        obtain ⟨i, hi⟩ := List.getElem?_of_mem hbimem
        obtain ⟨bd, hbd'⟩ := isDict_exists bi (hbd bi hbimem)
        have hlook : lookupNameIdx (baseItemsSpec bl 0) nm = some i := by
          have := lookupNameIdx_spec_some bl 0 i nm k bi hk hbk hbn hi hbik
          simpa using this
        have hPno : ∀ u ∈ P, nameMatch bi u = false := by
          intro u hu
          obtain ⟨_, ku, _, _, _, hku⟩ := itemKey_isSome_parts u (hwf u (by simp [hu])).2
          rw [nameMatch_key bi u k ku hbik hku]
          simp only [decide_eq_false_iff_not]
          intro he
          exact hdisjP u hu (he ▸ hku)
        have hlenP : i < (applyMatches bl P).length := by
          unfold applyMatches
          rw [List.length_map]
          exact getElem?_lt_len _ _ _ hi
        have hcuri : (applyMatches bl P ++ filterUnmatched bl P)[i]?
            = some (.pdict bd) := by
          rw [List.getElem?_append_left hlenP]
          unfold applyMatches
          rw [List.getElem?_map, hi]
          simp only [Option.map_some']
          rw [List.find?_eq_none.mpr (fun u hu => by simp [hPno u hu])]
          rw [hbd']
        have hmatch : nameMatch bi item = true := by
          rw [nameMatch_key bi item k k hbik hik]
          simp
        have hstep : merge_loop (baseItemsSpec bl 0)
              (applyMatches bl P ++ filterUnmatched bl P) (item :: rest)
            = (if (deep_update bd ud).2
               then ((applyMatches bl P ++ filterUnmatched bl P).set i
                   (.pdict (deep_update bd ud).1), true)
               else merge_loop (baseItemsSpec bl 0)
                 ((applyMatches bl P ++ filterUnmatched bl P).set i
                   (.pdict (deep_update bd ud).1)) rest) := by
          have hnm' : getName (PyVal.pdict ud) = some nm := hud ▸ hnm
          simp only [merge_loop, hud, hnm', hlook, hcuri]
        rw [hstep] at herr ⊢
        rcases hr : (deep_update bd ud).2 with _ | _
        · simp only [hr, Bool.false_eq_true, if_false] at herr ⊢
          have hset : (applyMatches bl P ++ filterUnmatched bl P).set i
                (.pdict (deep_update bd ud).1)
              = applyMatches bl (P ++ [item]) ++ filterUnmatched bl (P ++ [item]) := by
            rw [List.set_append, if_pos hlenP]
            rw [← applyMatches_snoc_matched bl P item i bi bd ud k hi hbd' hud hbik hik
              hbk hbn hPno]
            rw [filterUnmatched_snoc_matched bl P item bi hbimem hmatch]
          rw [hset] at herr ⊢
          have hres := ih (P ++ [item])
            (by rw [hasc]; exact hwf)
            (by rw [hasc]; exact hnd)
            herr
          rw [hres, hasc]
        · simp only [hr, if_true] at herr
          exact Bool.noConfusion herr
      · have hno : ∀ v ∈ bl, itemKey v ≠ some k := by
          intro v hv hk'
          exact hex ⟨v, hv, hk'⟩
        have hlook : lookupNameIdx (baseItemsSpec bl 0) nm = none :=
          lookupNameIdx_spec_none bl 0 nm k hk hbk hno
        have hblno : ∀ bi ∈ bl, nameMatch bi item = false := by
          intro bi hbi
          obtain ⟨_, kb, _, _, _, hkb⟩ := itemKey_isSome_parts bi (hbk bi hbi)
          rw [nameMatch_key bi item kb k hkb hik]
          simp only [decide_eq_false_iff_not]
          intro he
          exact hno bi hbi (he ▸ hkb)
        have hstep : merge_loop (baseItemsSpec bl 0)
              (applyMatches bl P ++ filterUnmatched bl P) (item :: rest)
            = merge_loop (baseItemsSpec bl 0)
              ((applyMatches bl P ++ filterUnmatched bl P) ++ [item]) rest := by
          simp only [merge_loop, hnm, hlook]
        have happ : (applyMatches bl P ++ filterUnmatched bl P) ++ [item]
            = applyMatches bl (P ++ [item]) ++ filterUnmatched bl (P ++ [item]) := by
          rw [applyMatches_snoc_unmatched bl P item hblno,
            filterUnmatched_snoc_unmatched bl P item hblno, List.append_assoc]
        rw [hstep, happ] at herr ⊢
        have hres := ih (P ++ [item])
          (by rw [hasc]; exact hwf)
          (by rw [hasc]; exact hnd)
          herr
        rw [hres, hasc]

theorem merge_loop_spec (bl ul : List PyVal)
    (hbd : ∀ v ∈ bl, PyVal.isDict v = true)
    (hbk : ∀ v ∈ bl, (itemKey v).isSome = true)
    (hbn : (bl.map itemKey).Nodup)
    (huw : ∀ v ∈ ul, PyVal.isDict v = true ∧ (itemKey v).isSome = true)
    (hun : (ul.map itemKey).Nodup)
    (herr : (merge_loop (baseItemsSpec bl 0) bl ul).2 = false) :
    merge_loop (baseItemsSpec bl 0) bl ul = (spec_merge_named bl ul, false) := by
  have hnilP : applyMatches bl [] ++ filterUnmatched bl [] = bl := by
    rw [applyMatches_nil_right]
    simp [filterUnmatched]
  have haux := merge_loop_spec_aux bl hbd hbk hbn ul []
    (by simpa using huw) (by simpa using hun) (by rw [hnilP]; exact herr)
  rw [hnilP] at haux
  rw [haux]
  rfl

theorem merge_value_named (bl ul : List PyVal)
    (hbd : ∀ v ∈ bl, PyVal.isDict v = true)
    (hbk : ∀ v ∈ bl, (itemKey v).isSome = true)
    (hbn : (bl.map itemKey).Nodup)
    (huw : ∀ v ∈ ul, PyVal.isDict v = true ∧ (itemKey v).isSome = true)
    (hun : (ul.map itemKey).Nodup)
    (herr : (merge_value (.plist bl) (.plist ul)).2 = false) :
    merge_value (.plist bl) (.plist ul) = (.plist (spec_merge_named bl ul), false) := by
  have hall : (bl ++ ul).all PyVal.isDict = true := by
    rw [List.all_eq_true]
    intro v hv
    rcases List.mem_append.mp hv with hv | hv
    · exact hbd v hv
    · exact (huw v hv).1
  have hbuild : buildBaseItems bl 0 = some (baseItemsSpec bl 0) :=
    buildBaseItems_eq_spec bl 0 hbk
  have hunfold : merge_value (.plist bl) (.plist ul)
      = (.plist (merge_loop (baseItemsSpec bl 0) bl ul).1,
         (merge_loop (baseItemsSpec bl 0) bl ul).2) := by
    simp only [merge_value, hall, if_true, hbuild]
  rw [hunfold] at herr ⊢
  have hml := merge_loop_spec bl ul hbd hbk hbn huw hun herr
  rw [hml]

theorem merge_value_other (bv uv : PyVal)
    (h1 : bv.isDict = false ∨ uv.isDict = false)
    (h2 : bv.isList = false ∨ uv.isList = false) :
    merge_value bv uv = (uv, false) := by
  cases bv <;> cases uv <;>
    simp_all [PyVal.isDict, PyVal.isList, merge_value]

/-- C5: the three merge rules of `deep_update`, at any key of the merged
reports (assuming the merge raised no exception, the update's keys are
unique, and — for the named-list clause — both lists hold record dicts with
unique hashable names as the claim requires): (1) a conflict that is not
dict-with-dict and not list-with-list is overwritten by the new value;
(2) dict-with-dict recurses, and keys present on only one side keep that
side's value; (3) list-of-named-records fields merge by name — matched
names are recursively deep-merged, unmatched new entries are appended, and
no unmatched old entry is ever dropped (it survives verbatim). -/
theorem C5_deep_merge_field_rules (b u : PyDict) (k : String)
    (hnd : (dictKeys u).Nodup)
    (hok : (deep_update b u).2 = false) :
    (∀ bv uv, lookupKey b k = some bv → lookupKey u k = some uv →
      (bv.isDict = false ∨ uv.isDict = false) →
      (bv.isList = false ∨ uv.isList = false) →
      lookupKey (deep_update b u).1 k = some uv) ∧
    (∀ bd ud, lookupKey b k = some (.pdict bd) → lookupKey u k = some (.pdict ud) →
      lookupKey (deep_update b u).1 k = some (.pdict (deep_update bd ud).1) ∧
      ((dictKeys ud).Nodup →
        (∀ j, lookupKey ud j = none →
          lookupKey (deep_update bd ud).1 j = lookupKey bd j) ∧
        (∀ j, lookupKey bd j = none →
          lookupKey (deep_update bd ud).1 j = lookupKey ud j))) ∧
    (∀ bl ul, lookupKey b k = some (.plist bl) → lookupKey u k = some (.plist ul) →
      (∀ v ∈ bl ++ ul, PyVal.isDict v = true ∧ (itemKey v).isSome = true) →
      (bl.map itemKey).Nodup → (ul.map itemKey).Nodup →
      lookupKey (deep_update b u).1 k = some (.plist (spec_merge_named bl ul)) ∧
      (∀ bi ∈ bl, (∀ ui ∈ ul, nameMatch bi ui = false) →
        bi ∈ spec_merge_named bl ul)) := by
  have hloc := lookupKey_deep_update u b hnd hok k
  refine ⟨?_, ?_, ?_⟩
  · intro bv uv hb hu h1 h2
    rw [hloc, hu, hb]
    simp only [merge_value_at]
    rw [merge_value_other bv uv h1 h2]
  · intro bd ud hb hu
    have herr := deep_update_merge_err u b hnd hok k _ hu
    rw [hb] at herr
    simp only [merge_value_at, merge_value] at herr
    constructor
    · rw [hloc, hu, hb]
      simp [merge_value_at, merge_value]
    · intro hndu
      have hloc2 := lookupKey_deep_update ud bd hndu herr
      constructor
      · intro j hj
        rw [hloc2 j, hj]
      · intro j hj
        rw [hloc2 j, hj]
        rcases hu' : lookupKey ud j with _ | uv
        · rfl
        · simp [merge_value_at]
  · intro bl ul hb hu hwf hbn hun
    have herr := deep_update_merge_err u b hnd hok k _ hu
    rw [hb] at herr
    simp only [merge_value_at] at herr
    have hbd : ∀ v ∈ bl, PyVal.isDict v = true :=
      fun v hv => (hwf v (List.mem_append_left _ hv)).1
    have hbk : ∀ v ∈ bl, (itemKey v).isSome = true :=
      fun v hv => (hwf v (List.mem_append_left _ hv)).2
    have huw : ∀ v ∈ ul, PyVal.isDict v = true ∧ (itemKey v).isSome = true :=
      fun v hv => hwf v (List.mem_append_right _ hv)
    have hmv := merge_value_named bl ul hbd hbk hbn huw hun herr
    constructor
    · rw [hloc, hu, hb]
      simp only [merge_value_at]
      rw [hmv]
    · intro bi hbi hnomatch
      unfold spec_merge_named
      apply List.mem_append_left
      unfold applyMatches
      have hfind : List.find? (fun ui => nameMatch bi ui) ul = none :=
        List.find?_eq_none.mpr (fun u hu' => by simp [hnomatch u hu'])
      have : (fun bi =>
          match List.find? (fun ui => nameMatch bi ui) ul with
          | some ui =>
              match bi, ui with
              | .pdict bd, .pdict ud => PyVal.pdict (deep_update bd ud).1
              | _, _ => bi
          | none => bi) bi = bi := by
        simp only [hfind]
      rw [← this]
      exact List.mem_map_of_mem _ hbi

/-- Witness for C5 on a small report pair exercising all three clauses. -/
theorem C5_deep_merge_field_rules_witness :
    lookupKey (deep_update
        [("cases", .plist [.pdict [("name", .pstr "c1"), ("x", .pint 1)]]),
         ("s", .pint 1), ("m", .pdict [("a", .pint 1)])]
        [("cases", .plist [.pdict [("name", .pstr "c1"), ("y", .pint 2)],
            .pdict [("name", .pstr "c2")]]),
         ("s", .pint 2), ("m", .pdict [("b", .pint 3)])]).1 "s" = some (.pint 2) ∧
    lookupKey (deep_update
        [("cases", .plist [.pdict [("name", .pstr "c1"), ("x", .pint 1)]]),
         ("s", .pint 1), ("m", .pdict [("a", .pint 1)])]
        [("cases", .plist [.pdict [("name", .pstr "c1"), ("y", .pint 2)],
            .pdict [("name", .pstr "c2")]]),
         ("s", .pint 2), ("m", .pdict [("b", .pint 3)])]).1 "m"
      = some (.pdict (deep_update [("a", .pint 1)] [("b", .pint 3)]).1) ∧
    lookupKey (deep_update
        [("cases", .plist [.pdict [("name", .pstr "c1"), ("x", .pint 1)]]),
         ("s", .pint 1), ("m", .pdict [("a", .pint 1)])]
        [("cases", .plist [.pdict [("name", .pstr "c1"), ("y", .pint 2)],
            .pdict [("name", .pstr "c2")]]),
         ("s", .pint 2), ("m", .pdict [("b", .pint 3)])]).1 "cases"
      = some (.plist (spec_merge_named
          [.pdict [("name", .pstr "c1"), ("x", .pint 1)]]
          [.pdict [("name", .pstr "c1"), ("y", .pint 2)],
           .pdict [("name", .pstr "c2")]])) := by
  have hnd : (dictKeys
      [("cases", PyVal.plist [.pdict [("name", .pstr "c1"), ("y", .pint 2)],
          .pdict [("name", .pstr "c2")]]),
       ("s", PyVal.pint 2), ("m", PyVal.pdict [("b", .pint 3)])]).Nodup := by
    simp [dictKeys]
  have hok : (deep_update
      [("cases", .plist [.pdict [("name", .pstr "c1"), ("x", .pint 1)]]),
       ("s", .pint 1), ("m", .pdict [("a", .pint 1)])]
      [("cases", .plist [.pdict [("name", .pstr "c1"), ("y", .pint 2)],
          .pdict [("name", .pstr "c2")]]),
       ("s", .pint 2), ("m", .pdict [("b", .pint 3)])]).2 = false := by
    simp [deep_update, update_key, merge_value, merge_loop, buildBaseItems,
      lookupNameIdx, lookupKey, setKey, getName, nameEq, toRatScalar,
      PyVal.hashable, PyVal.isDict]
  refine ⟨(C5_deep_merge_field_rules _ _ "s" hnd hok).1 (.pint 1) (.pint 2)
      rfl rfl (Or.inl rfl) (Or.inl rfl),
    ((C5_deep_merge_field_rules _ _ "m" hnd hok).2.1 [("a", .pint 1)]
      [("b", .pint 3)] rfl rfl).1,
    ((C5_deep_merge_field_rules _ _ "cases" hnd hok).2.2
      [.pdict [("name", .pstr "c1"), ("x", .pint 1)]]
      [.pdict [("name", .pstr "c1"), ("y", .pint 2)], .pdict [("name", .pstr "c2")]]
      rfl rfl (by decide) (by decide) (by decide)).1⟩

/-!
### Claim C9 — associativity of named-list membership
-/

theorem merge_loop_pairs_ok_aux (bl : List PyVal)
    (hbd : ∀ v ∈ bl, PyVal.isDict v = true)
    (hbk : ∀ v ∈ bl, (itemKey v).isSome = true)
    (hbn : (bl.map itemKey).Nodup) :
    ∀ (ul P : List PyVal),
      (∀ v ∈ P ++ ul, PyVal.isDict v = true ∧ (itemKey v).isSome = true) →
      ((P ++ ul).map itemKey).Nodup →
      (merge_loop (baseItemsSpec bl 0) (applyMatches bl P ++ filterUnmatched bl P) ul).2
        = false →
      ∀ ui ∈ ul, ∀ bi ∈ bl, nameMatch bi ui = true →
        (∀ u ∈ P, nameMatch bi u = false) →
        ∀ bd ud, bi = .pdict bd → ui = .pdict ud → (deep_update bd ud).2 = false := by
  intro ul
  induction ul with
  | nil =>
      intro P _ _ _ ui hui
      simp at hui
  | cons item rest ih =>
      intro P hwf hnd herr ui hui bi' hbi' hmatch' hPno' bd' ud' hbd'' hud''
      have hasc : (P ++ [item]) ++ rest = P ++ item :: rest := by simp
      have hitem := hwf item (by simp)
      obtain ⟨nm, k, hnm, hk, hh, hik⟩ := itemKey_isSome_parts item hitem.2
      obtain ⟨ud, hud⟩ := isDict_exists item hitem.1
      have hdisjP : ∀ u ∈ P, itemKey u ≠ some k := by
        intro u hu hk'
        rw [List.map_append, List.nodup_append] at hnd
        exact hnd.2.2 (hk' ▸ List.mem_map_of_mem itemKey hu)
          (by
            rw [List.map_cons, hik]
            exact List.mem_cons_self ..)
      by_cases hex : ∃ bi ∈ bl, itemKey bi = some k
      · obtain ⟨bi, hbimem, hbik⟩ := hex
        obtain ⟨i, hi⟩ := List.getElem?_of_mem hbimem
        obtain ⟨bd, hbd'⟩ := isDict_exists bi (hbd bi hbimem)
        have hlook : lookupNameIdx (baseItemsSpec bl 0) nm = some i := by
          have := lookupNameIdx_spec_some bl 0 i nm k bi hk hbk hbn hi hbik
          simpa using this
        have hPno : ∀ u ∈ P, nameMatch bi u = false := by
          intro u hu
          obtain ⟨_, ku, _, _, _, hku⟩ := itemKey_isSome_parts u (hwf u (by simp [hu])).2
          rw [nameMatch_key bi u k ku hbik hku]
          simp only [decide_eq_false_iff_not]
          intro he
          exact hdisjP u hu (he ▸ hku)
        have hlenP : i < (applyMatches bl P).length := by
          unfold applyMatches
          rw [List.length_map]
          exact getElem?_lt_len _ _ _ hi
        have hcuri : (applyMatches bl P ++ filterUnmatched bl P)[i]?
            = some (.pdict bd) := by
          rw [List.getElem?_append_left hlenP]
          unfold applyMatches
          rw [List.getElem?_map, hi]
          simp only [Option.map_some']
          rw [List.find?_eq_none.mpr (fun u hu => by simp [hPno u hu])]
          rw [hbd']
        have hmatch : nameMatch bi item = true := by
          rw [nameMatch_key bi item k k hbik hik]
          simp
        have hstep : merge_loop (baseItemsSpec bl 0)
              (applyMatches bl P ++ filterUnmatched bl P) (item :: rest)
            = (if (deep_update bd ud).2
               then ((applyMatches bl P ++ filterUnmatched bl P).set i
                   (.pdict (deep_update bd ud).1), true)
               else merge_loop (baseItemsSpec bl 0)
                 ((applyMatches bl P ++ filterUnmatched bl P).set i
                   (.pdict (deep_update bd ud).1)) rest) := by
          have hnm' : getName (PyVal.pdict ud) = some nm := hud ▸ hnm
          simp only [merge_loop, hud, hnm', hlook, hcuri]
        rw [hstep] at herr
        rcases hr : (deep_update bd ud).2 with _ | _
        · simp only [hr, Bool.false_eq_true, if_false] at herr
          have hset : (applyMatches bl P ++ filterUnmatched bl P).set i
                (.pdict (deep_update bd ud).1)
              = applyMatches bl (P ++ [item]) ++ filterUnmatched bl (P ++ [item]) := by
            rw [List.set_append, if_pos hlenP]
            rw [← applyMatches_snoc_matched bl P item i bi bd ud k hi hbd' hud hbik hik
              hbk hbn hPno]
            rw [filterUnmatched_snoc_matched bl P item bi hbimem hmatch]
          rw [hset] at herr
          rcases List.mem_cons.mp hui with hui' | hui'
          · -- the processed item is the pair in question
            subst hui'
            -- bi' matches ui, so bi' has key k and hence bi' = bi
            obtain ⟨_, kb, _, _, _, hkb⟩ := itemKey_isSome_parts bi' (hbk bi' hbi')
            have hkb' : kb = k := by
              have := hmatch'
              rw [nameMatch_key bi' ui kb k hkb hik] at this
              simpa using this
            obtain ⟨i', hi'⟩ := List.getElem?_of_mem hbi'
            have hieq : i' = i :=
              map_itemKey_pos_inj bl hbn i' i bi' bi k hi' hi (hkb' ▸ hkb) hbik
            have hbieq : bi' = bi := by
              rw [hieq] at hi'
              have := hi'.symm.trans hi
              injection this
            have hbdeq : bd' = bd := by
              have h2 := hbd' ▸ hbieq ▸ hbd''
              injection h2 with h3
              exact h3.symm
            have hudeq : ud' = ud := by
              have h2 := hud ▸ hud''
              injection h2 with h3
              exact h3.symm
            rw [hbdeq, hudeq]
            exact hr
          · exact ih (P ++ [item])
              (by rw [hasc]; exact hwf)
              (by rw [hasc]; exact hnd)
              herr ui hui' bi' hbi' hmatch'
              (by
                intro u hu
                rcases List.mem_append.mp hu with hu' | hu'
                · exact hPno' u hu'
                · rw [List.mem_singleton] at hu'
                  subst hu'
                  obtain ⟨_, kb, _, _, _, hkb⟩ := itemKey_isSome_parts bi' (hbk bi' hbi')
                  rw [nameMatch_key bi' u kb k hkb hik]
                  simp only [decide_eq_false_iff_not]
                  intro he
                  obtain ⟨_, ku, _, _, _, hku⟩ :=
                    itemKey_isSome_parts ui (hwf ui (by simp [List.mem_cons_of_mem _ hui'])).2
                  have hku' : ku = kb := by
                    have hm := hmatch'
                    rw [nameMatch_key bi' ui kb ku hkb hku] at hm
                    simp at hm
                    exact hm.symm
                  have hnd2 : ((u :: rest).map itemKey).Nodup := by
                    rw [List.map_append, List.nodup_append] at hnd
                    exact hnd.2.1
                  rw [List.map_cons, List.nodup_cons] at hnd2
                  have hmm : itemKey u = itemKey ui := by
                    rw [hik, hku, hku', he]
                  exact hnd2.1 (hmm ▸ List.mem_map_of_mem itemKey hui'))
              bd' ud' hbd'' hud''
        · simp only [hr, if_true] at herr
          exact Bool.noConfusion herr
      · have hno : ∀ v ∈ bl, itemKey v ≠ some k := by
          intro v hv hk'
          exact hex ⟨v, hv, hk'⟩
        have hlook : lookupNameIdx (baseItemsSpec bl 0) nm = none :=
          lookupNameIdx_spec_none bl 0 nm k hk hbk hno
        have hblno : ∀ bi ∈ bl, nameMatch bi item = false := by
          intro bi hbi
          obtain ⟨_, kb, _, _, _, hkb⟩ := itemKey_isSome_parts bi (hbk bi hbi)
          rw [nameMatch_key bi item kb k hkb hik]
          simp only [decide_eq_false_iff_not]
          intro he
          exact hno bi hbi (he ▸ hkb)
        have hstep : merge_loop (baseItemsSpec bl 0)
              (applyMatches bl P ++ filterUnmatched bl P) (item :: rest)
            = merge_loop (baseItemsSpec bl 0)
              ((applyMatches bl P ++ filterUnmatched bl P) ++ [item]) rest := by
          simp only [merge_loop, hnm, hlook]
        have happ : (applyMatches bl P ++ filterUnmatched bl P) ++ [item]
            = applyMatches bl (P ++ [item]) ++ filterUnmatched bl (P ++ [item]) := by
          rw [applyMatches_snoc_unmatched bl P item hblno,
            filterUnmatched_snoc_unmatched bl P item hblno, List.append_assoc]
        rw [hstep, happ] at herr
        rcases List.mem_cons.mp hui with hui' | hui'
        · subst hui'
          rw [hblno bi' hbi'] at hmatch'
          exact Bool.noConfusion hmatch'
        · exact ih (P ++ [item])
            (by rw [hasc]; exact hwf)
            (by rw [hasc]; exact hnd)
            herr ui hui' bi' hbi' hmatch'
            (by
              intro u hu
              rcases List.mem_append.mp hu with hu' | hu'
              · exact hPno' u hu'
              · rw [List.mem_singleton] at hu'
                subst hu'
                exact hblno bi' hbi')
            bd' ud' hbd'' hud''

theorem hashable_not_dict (v : PyVal) (h : v.hashable = true) : v.isDict = false := by
  cases v <;> simp_all [PyVal.hashable, PyVal.isDict]

theorem hashable_not_list (v : PyVal) (h : v.hashable = true) : v.isList = false := by
  cases v <;> simp_all [PyVal.hashable, PyVal.isList]

theorem merge_pairs_ok (bl ul : List PyVal)
    (hbd : ∀ v ∈ bl, PyVal.isDict v = true)
    (hbk : ∀ v ∈ bl, (itemKey v).isSome = true)
    (hbn : (bl.map itemKey).Nodup)
    (huw : ∀ v ∈ ul, PyVal.isDict v = true ∧ (itemKey v).isSome = true)
    (hun : (ul.map itemKey).Nodup)
    (herr : (merge_value (.plist bl) (.plist ul)).2 = false) :
    ∀ ui ∈ ul, ∀ bi ∈ bl, nameMatch bi ui = true →
      ∀ bd ud, bi = .pdict bd → ui = .pdict ud → (deep_update bd ud).2 = false := by
  have hall : (bl ++ ul).all PyVal.isDict = true := by
    rw [List.all_eq_true]
    intro v hv
    rcases List.mem_append.mp hv with hv | hv
    · exact hbd v hv
    · exact (huw v hv).1
  have hbuild : buildBaseItems bl 0 = some (baseItemsSpec bl 0) :=
    buildBaseItems_eq_spec bl 0 hbk
  have hunfold : merge_value (.plist bl) (.plist ul)
      = (.plist (merge_loop (baseItemsSpec bl 0) bl ul).1,
         (merge_loop (baseItemsSpec bl 0) bl ul).2) := by
    simp only [merge_value, hall, if_true, hbuild]
  rw [hunfold] at herr
  have hnilP : applyMatches bl [] ++ filterUnmatched bl [] = bl := by
    rw [applyMatches_nil_right]
    simp [filterUnmatched]
  intro ui hui bi hbi hm bd ud hbd' hud'
  exact merge_loop_pairs_ok_aux bl hbd hbk hbn ul []
    (by simpa using huw) (by simpa using hun) (by rw [hnilP]; exact herr)
    ui hui bi hbi hm (by intro u hu; simp at hu) bd ud hbd' hud'

theorem itemKey_merged (bd ud : PyDict) (ku : ℚ ⊕ String ⊕ Unit)
    (hndu : (dictKeys ud).Nodup)
    (herr : (deep_update bd ud).2 = false)
    (hbname : ∃ nmb, lookupKey bd "name" = some nmb ∧ nmb.hashable = true)
    (hku : itemKey (.pdict ud) = some ku) :
    itemKey (.pdict (deep_update bd ud).1) = some ku := by
  obtain ⟨nmb, hnb, hhb⟩ := hbname
  obtain ⟨nmu, ku', hgu, hku', _, hiu⟩ := itemKey_isSome_parts (.pdict ud) (by simp [hku])
  have hkuk : ku' = ku := by
    rw [hiu] at hku
    injection hku
  have hloc := lookupKey_deep_update ud bd hndu herr "name"
  rw [itemKey]
  rw [show getName (.pdict (deep_update bd ud).1)
      = lookupKey (deep_update bd ud).1 "name" from rfl]
  rw [hloc]
  rw [show getName (.pdict ud) = lookupKey ud "name" from rfl] at hgu
  rw [hgu, hnb]
  simp only [merge_value_at]
  rw [merge_value_other nmb nmu (Or.inl (hashable_not_dict nmb hhb))
    (Or.inl (hashable_not_list nmb hhb))]
  simp only [Option.some_bind]
  rw [hku', hkuk]

theorem itemKey_applyMatches (bl ul : List PyVal)
    (hbd : ∀ v ∈ bl, PyVal.isDict v = true)
    (hbk : ∀ v ∈ bl, (itemKey v).isSome = true)
    (hurec : ∀ v ∈ ul, PyVal.isDict v = true ∧ (itemKey v).isSome = true ∧
      recordKeysNodup v = true)
    (hpairs : ∀ ui ∈ ul, ∀ bi ∈ bl, nameMatch bi ui = true →
      ∀ bd ud, bi = .pdict bd → ui = .pdict ud → (deep_update bd ud).2 = false) :
    (applyMatches bl ul).map itemKey = bl.map itemKey := by
  unfold applyMatches
  rw [List.map_map]
  apply List.map_congr_left
  intro bi hbi
  simp only [Function.comp_apply]
  rcases hfind : List.find? (fun ui => nameMatch bi ui) ul with _ | ui
  · rfl
  · have hui : ui ∈ ul := List.mem_of_find?_eq_some hfind
    have hmatch : nameMatch bi ui = true := List.find?_some hfind
    obtain ⟨bd, hbd'⟩ := isDict_exists bi (hbd bi hbi)
    obtain ⟨ud, hud'⟩ := isDict_exists ui (hurec ui hui).1
    rw [hbd', hud']
    obtain ⟨nmb, kb, hgb, hkb, hhb, hib⟩ := itemKey_isSome_parts bi (hbk bi hbi)
    obtain ⟨nmu, ku, hgu, hkuk, _, hiu⟩ := itemKey_isSome_parts ui (hurec ui hui).2.1
    have hkbu : kb = ku := by
      rw [nameMatch_key bi ui kb ku hib hiu] at hmatch
      simpa using hmatch
    have hndu : (dictKeys ud).Nodup := by
      have := (hurec ui hui).2.2
      rw [hud'] at this
      simpa [recordKeysNodup] using this
    have herr := hpairs ui hui bi hbi hmatch bd ud hbd' hud'
    have hib' : itemKey (PyVal.pdict bd) = some kb := hbd' ▸ hib
    have hgb' : lookupKey bd "name" = some nmb := by
      rw [hbd'] at hgb
      exact hgb
    have hmerged := itemKey_merged bd ud ku hndu herr ⟨nmb, hgb', hhb⟩ (hud' ▸ hiu)
    show itemKey (PyVal.pdict (deep_update bd ud).1) = itemKey (PyVal.pdict bd)
    rw [hmerged, hib', hkbu]

theorem map_itemKey_spec_merge (bl ul : List PyVal)
    (hbd : ∀ v ∈ bl, PyVal.isDict v = true)
    (hbk : ∀ v ∈ bl, (itemKey v).isSome = true)
    (hurec : ∀ v ∈ ul, PyVal.isDict v = true ∧ (itemKey v).isSome = true ∧
      recordKeysNodup v = true)
    (hpairs : ∀ ui ∈ ul, ∀ bi ∈ bl, nameMatch bi ui = true →
      ∀ bd ud, bi = .pdict bd → ui = .pdict ud → (deep_update bd ud).2 = false) :
    (spec_merge_named bl ul).map itemKey
      = bl.map itemKey ++ (filterUnmatched bl ul).map itemKey := by
  unfold spec_merge_named
  rw [List.map_append, itemKey_applyMatches bl ul hbd hbk hurec hpairs]

theorem mem_itemKey_spec_merge (bl ul : List PyVal)
    (hbd : ∀ v ∈ bl, PyVal.isDict v = true)
    (hbk : ∀ v ∈ bl, (itemKey v).isSome = true)
    (hurec : ∀ v ∈ ul, PyVal.isDict v = true ∧ (itemKey v).isSome = true ∧
      recordKeysNodup v = true)
    (hpairs : ∀ ui ∈ ul, ∀ bi ∈ bl, nameMatch bi ui = true →
      ∀ bd ud, bi = .pdict bd → ui = .pdict ud → (deep_update bd ud).2 = false)
    (κ : ℚ ⊕ String ⊕ Unit) :
    some κ ∈ (spec_merge_named bl ul).map itemKey ↔
      some κ ∈ bl.map itemKey ∨ some κ ∈ ul.map itemKey := by
  rw [map_itemKey_spec_merge bl ul hbd hbk hurec hpairs, List.mem_append]
  constructor
  · rintro (h | h)
    · exact Or.inl h
    · obtain ⟨v, hvf, hveq⟩ := List.mem_map.mp h
      exact Or.inr (hveq ▸ List.mem_map_of_mem itemKey (List.mem_of_mem_filter hvf))
  · rintro (h | h)
    · exact Or.inl h
    · obtain ⟨ui, huil, huieq⟩ := List.mem_map.mp h
      rcases hany : bl.any (fun bi => nameMatch bi ui) with _ | _
      · refine Or.inr ?_
        have huif : ui ∈ filterUnmatched bl ul := by
          unfold filterUnmatched
          exact List.mem_filter.mpr ⟨huil, by simp [hany]⟩
        exact huieq ▸ List.mem_map_of_mem itemKey huif
      · obtain ⟨bi, hbi, hm⟩ := List.any_eq_true.mp hany
        obtain ⟨_, kb, _, _, _, hib⟩ := itemKey_isSome_parts bi (hbk bi hbi)
        have hkb : kb = κ := by
          rw [nameMatch_key bi ui kb κ hib huieq] at hm
          simpa using hm
        refine Or.inl ?_
        have hbik : itemKey bi = some κ := by rw [hib, hkb]
        exact hbik ▸ List.mem_map_of_mem itemKey hbi

theorem mem_applyMatches_cases (bl ul : List PyVal)
    (hbd : ∀ v ∈ bl, PyVal.isDict v = true)
    (hbk : ∀ v ∈ bl, (itemKey v).isSome = true)
    (hrecb : ∀ v ∈ bl, recordKeysNodup v = true)
    (hurec : ∀ v ∈ ul, PyVal.isDict v = true ∧ (itemKey v).isSome = true ∧
      recordKeysNodup v = true)
    (hpairs : ∀ ui ∈ ul, ∀ bi ∈ bl, nameMatch bi ui = true →
      ∀ bd ud, bi = .pdict bd → ui = .pdict ud → (deep_update bd ud).2 = false)
    (v : PyVal) (hv : v ∈ applyMatches bl ul) :
    ∃ bi ∈ bl, itemKey v = itemKey bi ∧ PyVal.isDict v = true ∧
      recordKeysNodup v = true := by
  unfold applyMatches at hv
  obtain ⟨bi, hbi, hveq⟩ := List.mem_map.mp hv
  refine ⟨bi, hbi, ?_⟩
  have hv2 : v = (fun b => match List.find? (fun ui => nameMatch b ui) ul with
    | some ui =>
        match b, ui with
        | .pdict bd, .pdict ud => PyVal.pdict (deep_update bd ud).1
        | _, _ => b
    | none => b) bi := hveq.symm
  rcases hfind : List.find? (fun ui => nameMatch bi ui) ul with _ | ui
  · simp only [hfind] at hv2
    subst hv2
    exact ⟨rfl, hbd _ hbi, hrecb _ hbi⟩
  · have hui : ui ∈ ul := List.mem_of_find?_eq_some hfind
    have hmatch : nameMatch bi ui = true := List.find?_some hfind
    obtain ⟨bd, hbd'⟩ := isDict_exists bi (hbd bi hbi)
    obtain ⟨ud, hud'⟩ := isDict_exists ui (hurec ui hui).1
    subst hbd'
    subst hud'
    simp only [hfind] at hv2
    subst hv2
    obtain ⟨nmb, kb, hgb, hkb, hhb, hib⟩ :=
      itemKey_isSome_parts (.pdict bd) (hbk _ hbi)
    obtain ⟨nmu, ku, hgu, hkuk, _, hiu⟩ :=
      itemKey_isSome_parts (.pdict ud) (hurec _ hui).2.1
    have hkbu : kb = ku := by
      rw [nameMatch_key (.pdict bd) (.pdict ud) kb ku hib hiu] at hmatch
      simpa using hmatch
    have hndu : (dictKeys ud).Nodup := by
      have hrec := (hurec _ hui).2.2
      simpa [recordKeysNodup] using hrec
    have herr := hpairs _ hui _ hbi hmatch bd ud rfl rfl
    have hgb' : lookupKey bd "name" = some nmb := hgb
    have hmerged := itemKey_merged bd ud ku hndu herr ⟨nmb, hgb', hhb⟩ hiu
    have hbdnodup : (dictKeys bd).Nodup := by
      have hr := hrecb _ hbi
      simpa [recordKeysNodup] using hr
    refine ⟨?_, rfl, ?_⟩
    · rw [hmerged, hib, hkbu]
    · show decide ((dictKeys (deep_update bd ud).1).Nodup) = true
      exact decide_eq_true (nodup_dictKeys_deep_update ud bd hbdnodup)

theorem WF_spec_merge (bl ul : List PyVal)
    (hwb : WFNamedList bl) (hwu : WFNamedList ul)
    (hpairs : ∀ ui ∈ ul, ∀ bi ∈ bl, nameMatch bi ui = true →
      ∀ bd ud, bi = .pdict bd → ui = .pdict ud → (deep_update bd ud).2 = false) :
    WFNamedList (spec_merge_named bl ul) := by
  obtain ⟨hbrec, hbn⟩ := hwb
  obtain ⟨hurec, hun⟩ := hwu
  have hbd : ∀ v ∈ bl, PyVal.isDict v = true := fun v hv => (hbrec v hv).1
  have hbk : ∀ v ∈ bl, (itemKey v).isSome = true := fun v hv => (hbrec v hv).2.1
  have hrecb : ∀ v ∈ bl, recordKeysNodup v = true := fun v hv => (hbrec v hv).2.2
  constructor
  · intro v hv
    unfold spec_merge_named at hv
    rcases List.mem_append.mp hv with hv | hv
    · obtain ⟨bi, hbi, hkeq, hdict, hrec⟩ :=
        mem_applyMatches_cases bl ul hbd hbk hrecb hurec hpairs v hv
      exact ⟨hdict, hkeq ▸ (hbrec bi hbi).2.1, hrec⟩
    · exact hurec v (List.mem_of_mem_filter hv)
  · rw [map_itemKey_spec_merge bl ul hbd hbk hurec hpairs, List.nodup_append]
    refine ⟨hbn, ?_, ?_⟩
    · exact ((List.filter_sublist _).map itemKey).nodup hun
    · intro κ hκb hκf
      obtain ⟨ui, huif, huieq⟩ := List.mem_map.mp hκf
      obtain ⟨bi, hbi, hbieq⟩ := List.mem_map.mp hκb
      obtain ⟨_, kb, _, _, _, hib⟩ := itemKey_isSome_parts bi (hbk bi hbi)
      have hui : ui ∈ ul := List.mem_of_mem_filter huif
      obtain ⟨_, ku, _, _, _, hiu⟩ := itemKey_isSome_parts ui ((hurec ui hui).2.1)
      have hkbku : kb = ku := by
        have h1 : some kb = κ := hib ▸ hbieq
        have h2 : some ku = κ := hiu ▸ huieq
        have := h1.trans h2.symm
        injection this
      have hm : nameMatch bi ui = true := by
        rw [nameMatch_key bi ui kb ku hib hiu]
        simp [hkbku]
      have hpred : (!(bl.any (fun b => nameMatch b ui))) = true := by
        unfold filterUnmatched at huif
        exact (List.mem_filter.mp huif).2
      have hany : bl.any (fun b => nameMatch b ui) = true :=
        List.any_eq_true.mpr ⟨bi, hbi, hm⟩
      rw [hany] at hpred
      exact Bool.noConfusion hpred

/-- C9: the deep merge of report fragments is associative with respect to
named-list membership.  For well-formed named-record lists A, B, C (each
entry a dict with unique keys and a hashable, pairwise-distinct `name`),
whenever both bracketings of the merge run without raising, the named-list
field obtained by merging A with B and then the result with C contains
exactly the same set of names as merging A with the merge of B and C:
both equal the union of the three name sets. -/
theorem C9_merge_assoc_membership (la lb lc : List PyVal)
    (hwa : WFNamedList la) (hwb : WFNamedList lb) (hwc : WFNamedList lc)
    (hab : (merge_value (.plist la) (.plist lb)).2 = false)
    (habc : (merge_value (merge_value (.plist la) (.plist lb)).1
        (.plist lc)).2 = false)
    (hbc : (merge_value (.plist lb) (.plist lc)).2 = false)
    (habc' : (merge_value (.plist la)
        (merge_value (.plist lb) (.plist lc)).1).2 = false)
    (κ : ℚ ⊕ String ⊕ Unit) :
    (some κ ∈ namedKeys (merge_value (merge_value (.plist la) (.plist lb)).1
        (.plist lc)).1) ↔
      (some κ ∈ namedKeys (merge_value (.plist la)
        (merge_value (.plist lb) (.plist lc)).1).1) := by
  have hda : ∀ v ∈ la, PyVal.isDict v = true := fun v hv => (hwa.1 v hv).1
  have hka : ∀ v ∈ la, (itemKey v).isSome = true := fun v hv => (hwa.1 v hv).2.1
  have hdb : ∀ v ∈ lb, PyVal.isDict v = true := fun v hv => (hwb.1 v hv).1
  have hkb : ∀ v ∈ lb, (itemKey v).isSome = true := fun v hv => (hwb.1 v hv).2.1
  have hdc : ∀ v ∈ lc, PyVal.isDict v = true := fun v hv => (hwc.1 v hv).1
  have hkc : ∀ v ∈ lc, (itemKey v).isSome = true := fun v hv => (hwc.1 v hv).2.1
  have huwb : ∀ v ∈ lb, PyVal.isDict v = true ∧ (itemKey v).isSome = true :=
    fun v hv => ⟨hdb v hv, hkb v hv⟩
  have huwc : ∀ v ∈ lc, PyVal.isDict v = true ∧ (itemKey v).isSome = true :=
    fun v hv => ⟨hdc v hv, hkc v hv⟩
  -- left bracketing: A ⊕ B, then ⊕ C
  have hmv_ab := merge_value_named la lb hda hka hwa.2 huwb hwb.2 hab
  have hab1 : (merge_value (.plist la) (.plist lb)).1
      = .plist (spec_merge_named la lb) := by rw [hmv_ab]
  have hpairs_ab := merge_pairs_ok la lb hda hka hwa.2 huwb hwb.2 hab
  have hwab := WF_spec_merge la lb hwa hwb hpairs_ab
  have hdab : ∀ v ∈ spec_merge_named la lb, PyVal.isDict v = true :=
    fun v hv => (hwab.1 v hv).1
  have hkab : ∀ v ∈ spec_merge_named la lb, (itemKey v).isSome = true :=
    fun v hv => (hwab.1 v hv).2.1
  rw [hab1] at habc
  have hmv_abc := merge_value_named (spec_merge_named la lb) lc
    hdab hkab hwab.2 huwc hwc.2 habc
  have habc1 : (merge_value (.plist (spec_merge_named la lb)) (.plist lc)).1
      = .plist (spec_merge_named (spec_merge_named la lb) lc) := by rw [hmv_abc]
  have hpairs_abc := merge_pairs_ok (spec_merge_named la lb) lc
    hdab hkab hwab.2 huwc hwc.2 habc
  -- right bracketing: B ⊕ C, then A ⊕ ·
  have hmv_bc := merge_value_named lb lc hdb hkb hwb.2 huwc hwc.2 hbc
  have hbc1 : (merge_value (.plist lb) (.plist lc)).1
      = .plist (spec_merge_named lb lc) := by rw [hmv_bc]
  have hpairs_bc := merge_pairs_ok lb lc hdb hkb hwb.2 huwc hwc.2 hbc
  have hwbc := WF_spec_merge lb lc hwb hwc hpairs_bc
  have hdbc : ∀ v ∈ spec_merge_named lb lc, PyVal.isDict v = true :=
    fun v hv => (hwbc.1 v hv).1
  have hkbc : ∀ v ∈ spec_merge_named lb lc, (itemKey v).isSome = true :=
    fun v hv => (hwbc.1 v hv).2.1
  have huwbc : ∀ v ∈ spec_merge_named lb lc,
      PyVal.isDict v = true ∧ (itemKey v).isSome = true :=
    fun v hv => ⟨hdbc v hv, hkbc v hv⟩
  rw [hbc1] at habc'
  have hmv_abc' := merge_value_named la (spec_merge_named lb lc)
    hda hka hwa.2 huwbc hwbc.2 habc'
  have habc1' : (merge_value (.plist la) (.plist (spec_merge_named lb lc))).1
      = .plist (spec_merge_named la (spec_merge_named lb lc)) := by rw [hmv_abc']
  have hpairs_abc' := merge_pairs_ok la (spec_merge_named lb lc)
    hda hka hwa.2 huwbc hwbc.2 habc'
  rw [hab1, habc1, hbc1, habc1']
  simp only [namedKeys]
  rw [mem_itemKey_spec_merge (spec_merge_named la lb) lc hdab hkab hwc.1
      hpairs_abc κ,
    mem_itemKey_spec_merge la lb hda hka hwb.1 hpairs_ab κ,
    mem_itemKey_spec_merge la (spec_merge_named lb lc) hda hka hwbc.1
      hpairs_abc' κ,
    mem_itemKey_spec_merge lb lc hdb hkb hwc.1 hpairs_bc κ]
  exact or_assoc

/-- Witness for C9 on three one-record fragments whose names overlap
between the first and third fragment. -/
theorem C9_merge_assoc_membership_witness :
    (some (Sum.inr (Sum.inl "b")) ∈ namedKeys (merge_value
        (merge_value (.plist [.pdict [("name", .pstr "a"), ("x", .pint 1)]])
          (.plist [.pdict [("name", .pstr "b"), ("y", .pint 2)]])).1
        (.plist [.pdict [("name", .pstr "a"), ("z", .pint 3)]])).1) ↔
      (some (Sum.inr (Sum.inl "b")) ∈ namedKeys (merge_value
        (.plist [.pdict [("name", .pstr "a"), ("x", .pint 1)]])
        (merge_value (.plist [.pdict [("name", .pstr "b"), ("y", .pint 2)]])
          (.plist [.pdict [("name", .pstr "a"), ("z", .pint 3)]])).1).1) := by
  exact C9_merge_assoc_membership
    [.pdict [("name", .pstr "a"), ("x", .pint 1)]]
    [.pdict [("name", .pstr "b"), ("y", .pint 2)]]
    [.pdict [("name", .pstr "a"), ("z", .pint 3)]]
    (by constructor
        · intro v hv
          simp only [List.mem_singleton] at hv
          subst hv
          refine ⟨rfl, by decide, by decide⟩
        · decide)
    (by constructor
        · intro v hv
          simp only [List.mem_singleton] at hv
          subst hv
          refine ⟨rfl, by decide, by decide⟩
        · decide)
    (by constructor
        · intro v hv
          simp only [List.mem_singleton] at hv
          subst hv
          refine ⟨rfl, by decide, by decide⟩
        · decide)
    (by simp [merge_value, merge_loop, deep_update, update_key, buildBaseItems,
        lookupNameIdx, lookupKey, setKey, getName, nameEq, toRatScalar,
        PyVal.hashable, PyVal.isDict])
    (by simp [merge_value, merge_loop, deep_update, update_key, buildBaseItems,
        lookupNameIdx, lookupKey, setKey, getName, nameEq, toRatScalar,
        PyVal.hashable, PyVal.isDict])
    (by simp [merge_value, merge_loop, deep_update, update_key, buildBaseItems,
        lookupNameIdx, lookupKey, setKey, getName, nameEq, toRatScalar,
        PyVal.hashable, PyVal.isDict])
    (by simp [merge_value, merge_loop, deep_update, update_key, buildBaseItems,
        lookupNameIdx, lookupKey, setKey, getName, nameEq, toRatScalar,
        PyVal.hashable, PyVal.isDict])
    (Sum.inr (Sum.inl "b"))

/-!
### Self-merge absorption and the second pass of `execute`
-/

theorem lookupKey_append_left (d t : PyDict) (k : String) (v : PyVal)
    (h : lookupKey d k = some v) : lookupKey (d ++ t) k = some v := by
  induction d with
  | nil => simp [lookupKey] at h
  | cons hd tl ih =>
      obtain ⟨k₀, w⟩ := hd
      simp only [lookupKey, List.cons_append] at h ⊢
      by_cases h0 : k₀ = k
      · simpa [h0] using h
      · rw [if_neg h0] at h ⊢
        exact ih h

theorem lookup_of_mem_nodup (d : PyDict) (hnd : (dictKeys d).Nodup)
    (k : String) (v : PyVal) (hm : (k, v) ∈ d) : lookupKey d k = some v := by
  induction d with
  | nil => simp at hm
  | cons hd tl ih =>
      obtain ⟨k₀, w⟩ := hd
      simp only [dictKeys, List.map_cons, List.nodup_cons] at hnd
      rcases List.mem_cons.mp hm with h | h
      · injection h with h1 h2
        subst h1
        subst h2
        simp [lookupKey]
      · have hk : k ∈ dictKeys tl := by
          have := List.mem_map_of_mem Prod.fst h
          simpa [dictKeys] using this
        have hne : k₀ ≠ k := fun he => hnd.1 (he ▸ hk)
        rw [lookupKey, if_neg hne]
        exact ih (by simpa [dictKeys] using hnd.2) h

theorem setKey_of_lookup_self (d : PyDict) (k : String) (v : PyVal)
    (h : lookupKey d k = some v) : setKey d k v = d := by
  induction d with
  | nil => simp [lookupKey] at h
  | cons hd tl ih =>
      obtain ⟨k₀, w⟩ := hd
      by_cases h0 : k₀ = k
      · rw [lookupKey, if_pos h0] at h
        injection h with h2
        rw [setKey, if_pos h0, h2]
      · rw [lookupKey, if_neg h0] at h
        rw [setKey, if_neg h0, ih h]

theorem setKey_of_notin (d : PyDict) (k : String) (v : PyVal)
    (h : lookupKey d k = none) : setKey d k v = d ++ [(k, v)] := by
  induction d with
  | nil => simp [setKey]
  | cons hd tl ih =>
      obtain ⟨k₀, w⟩ := hd
      rw [lookupKey] at h
      by_cases h0 : k₀ = k
      · rw [if_pos h0] at h
        exact absurd h (by simp)
      · rw [if_neg h0] at h
        rw [setKey, if_neg h0, ih h]
        rfl

theorem deep_update_append (base l₁ l₂ : PyDict) :
    deep_update base (l₁ ++ l₂) =
      if (deep_update base l₁).2 then deep_update base l₁
      else deep_update (deep_update base l₁).1 l₂ := by
  induction l₁ generalizing base with
  | nil => simp [deep_update_nil]
  | cons hd tl ih =>
      obtain ⟨k, v⟩ := hd
      rw [List.cons_append, deep_update_cons, deep_update_cons]
      rcases herr : (update_key base k v).2 with _ | _
      · simp only [herr, Bool.false_eq_true, if_false]
        exact ih _
      · simp only [herr, if_true]

theorem selfOkList_mem (l : List PyVal) (h : selfOkList l = true)
    (v : PyVal) (hv : v ∈ l) : selfOk v = true := by
  induction l with
  | nil => simp at hv
  | cons x xs ih =>
      simp only [selfOkList, Bool.and_eq_true] at h
      rcases List.mem_cons.mp hv with h1 | h1
      · exact h1 ▸ h.1
      · exact ih h.2 h1

theorem selfOkDict_mem (d : PyDict) (h : selfOkDict d = true)
    (k : String) (v : PyVal) (hm : (k, v) ∈ d) : selfOk v = true := by
  induction d with
  | nil => simp at hm
  | cons hd tl ih =>
      obtain ⟨k₀, w⟩ := hd
      simp only [selfOkDict, Bool.and_eq_true] at h
      rcases List.mem_cons.mp hm with h1 | h1
      · injection h1 with h2 h3
        exact h3 ▸ h.1
      · exact ih h.2 h1

theorem deep_update_self_of (u base : PyDict)
    (h : ∀ p ∈ u, lookupKey base p.1 = some p.2 ∧
      merge_value p.2 p.2 = (p.2, false)) :
    deep_update base u = (base, false) := by
  induction u with
  | nil => exact deep_update_nil base
  | cons hd tl ih =>
      obtain ⟨k, v⟩ := hd
      obtain ⟨hl, hm⟩ := h (k, v) (List.mem_cons_self ..)
      rw [deep_update_cons, update_key_of_some base k v v hl, hm]
      simp only [setKey_of_lookup_self base k v hl, Bool.false_eq_true, if_false]
      exact ih (fun p hp => h p (List.mem_cons_of_mem _ hp))

theorem foldl_filter_step_filtered (ckpt : ℚ → CkptFile) (l : List ℚ)
    (hclean : ∀ a ∈ l, cleanCkpt (ckpt a) = true) :
    ∀ st : FilterState, (List.foldl (filter_step ckpt) st l).filtered =
      List.foldl (fun acc a => remove_first a acc) st.filtered l := by
  induction l with
  | nil => intro st; rfl
  | cons a xs ih =>
      intro st
      have hc := hclean a (List.mem_cons_self ..)
      rcases hr : readFailFlag (ckpt a) with _ | ⟨d, ff⟩
      · simp only [cleanCkpt, hr] at hc
        exact Bool.noConfusion hc
      · simp only [cleanCkpt, hr] at hc
        rw [List.foldl_cons, List.foldl_cons,
          filter_step_of_clean ckpt st a d ff hr hc]
        exact ih (fun b hb => hclean b (List.mem_cons_of_mem _ hb)) _

theorem foldl_remove_self (l : List ℚ) :
    List.foldl (fun acc a => remove_first a acc) l l = [] := by
  induction l with
  | nil => rfl
  | cons a xs ih =>
      rw [List.foldl_cons]
      have h : remove_first a (a :: xs) = xs := by simp [remove_first]
      rw [h]
      exact ih

theorem filter_all_clean_filtered_nil (ckpt : ℚ → CkptFile) (l : List ℚ)
    (hclean : ∀ a ∈ l, cleanCkpt (ckpt a) = true) :
    (filter_aoa_loop ckpt l).filtered = [] := by
  rw [filter_aoa_loop, foldl_filter_step_filtered ckpt l hclean]
  exact foldl_remove_self l

theorem dispatch_payload_of_clean (ckpt : ℚ → CkptFile) (l : List ℚ)
    (hclean : ∀ a ∈ l, cleanCkpt (ckpt a) = true) :
    dispatch_payload ckpt l = none := by
  simp [dispatch_payload, filter_all_clean_filtered_nil ckpt l hclean]

theorem set_getElem_self (l : List PyVal) (i : Nat) (a : PyVal)
    (h : l[i]? = some a) : l.set i a = l := by
  induction l generalizing i with
  | nil => simp at h
  | cons x xs ih =>
      cases i with
      | zero =>
          have hx : x = a := by simpa using h
          subst hx
          rfl
      | succ j =>
          have h' : xs[j]? = some a := by simpa using h
          show x :: xs.set j a = x :: xs
          rw [ih j h']

theorem merge_loop_self_aux (l : List PyVal)
    (hd : ∀ v ∈ l, PyVal.isDict v = true)
    (hk : ∀ v ∈ l, (itemKey v).isSome = true)
    (hn : (l.map itemKey).Nodup)
    (hmerge : ∀ bd, PyVal.pdict bd ∈ l → deep_update bd bd = (bd, false)) :
    ∀ (rest : List PyVal) (k : Nat), l.drop k = rest →
      merge_loop (baseItemsSpec l 0) l rest = (l, false) := by
  intro rest
  induction rest with
  | nil =>
      intro k _
      simp [merge_loop]
  | cons item rest' ih =>
      intro k hdrop
      have hlen : k < l.length := by
        by_contra hge
        push_neg at hge
        rw [List.drop_eq_nil_of_le hge] at hdrop
        exact List.noConfusion hdrop
      have hitem : l[k]? = some item := by
        have h0 : (l.drop k)[0]? = some item := by rw [hdrop]; simp
        rw [List.getElem?_drop] at h0
        simpa using h0
      have hmem : item ∈ l := List.getElem?_mem hitem
      have hrest' : l.drop (k + 1) = rest' := by
        have hdd : List.drop 1 (List.drop k l) = List.drop (k + 1) l :=
          List.drop_drop 1 k l
        rw [hdrop] at hdd
        simpa using hdd.symm
      obtain ⟨nm, κ, hg, hκ, hh, hik⟩ := itemKey_isSome_parts item (hk item hmem)
      obtain ⟨bd, hbd⟩ := isDict_exists item (hd item hmem)
      subst hbd
      have hidx := lookupNameIdx_spec_some l 0 k nm κ (.pdict bd) hκ hk hn hitem hik
      rw [merge_loop]
      simp only [hg, hidx, Nat.zero_add, hitem, hmerge bd hmem,
        Bool.false_eq_true, if_false, set_getElem_self l k (.pdict bd) hitem]
      exact ih (k + 1) hrest'

theorem merge_value_self_aux (n : Nat) :
    ∀ v : PyVal, sizeOf v ≤ n → selfOk v = true → merge_value v v = (v, false) := by
  induction n with
  | zero =>
      intro v hle _
      exfalso
      have hpos : 0 < sizeOf v := by cases v <;> simp_arith
      omega
  | succ n ih =>
      intro v hle hok
      cases v with
      | pstr s => simp [merge_value]
      | pint i => simp [merge_value]
      | pnum q => simp [merge_value]
      | pbool b => simp [merge_value]
      | pnone => simp [merge_value]
      | pdict d =>
          simp only [selfOk, Bool.and_eq_true, decide_eq_true_eq] at hok
          have hDU : deep_update d d = (d, false) := by
            apply deep_update_self_of
            intro p hp
            obtain ⟨k₀, v₀⟩ := p
            refine ⟨lookup_of_mem_nodup d hok.1 k₀ v₀ hp, ?_⟩
            show merge_value v₀ v₀ = (v₀, false)
            apply ih
            · have h1 : sizeOf (k₀, v₀) < sizeOf d := List.sizeOf_lt_of_mem hp
              have h2 : sizeOf v₀ < sizeOf (k₀, v₀) := by simp_arith
              have h3 : sizeOf d < sizeOf (PyVal.pdict d) := by simp_arith
              simp only [PyVal.pdict.sizeOf_spec] at hle
              omega
            · exact selfOkDict_mem d hok.2 k₀ v₀ hp
          simp [merge_value, hDU]
      | plist l =>
          rcases hall : l.all PyVal.isDict with _ | _
          · have hall2 : (l ++ l).all PyVal.isDict = false := by
              rw [List.all_append, hall]
              rfl
            simp [merge_value, hall2]
          · simp only [selfOk, hall, if_true, Bool.and_eq_true,
              List.all_eq_true, decide_eq_true_eq] at hok
            obtain ⟨⟨hks, hnod⟩, hsl⟩ := hok
            have hdl : ∀ v ∈ l, PyVal.isDict v = true := List.all_eq_true.mp hall
            have hall2 : (l ++ l).all PyVal.isDict = true := by
              rw [List.all_append, hall]
              rfl
            have hbb : buildBaseItems l 0 = some (baseItemsSpec l 0) :=
              buildBaseItems_eq_spec l 0 hks
            have hml : merge_loop (baseItemsSpec l 0) l l = (l, false) := by
              apply merge_loop_self_aux l hdl hks hnod ?_ l 0 rfl
              intro bd hbdmem
              have hself : selfOk (.pdict bd) = true := selfOkList_mem l hsl _ hbdmem
              have hsz : sizeOf (PyVal.pdict bd) ≤ n := by
                have h1 : sizeOf (PyVal.pdict bd) < sizeOf l :=
                  List.sizeOf_lt_of_mem hbdmem
                have h3 : sizeOf l < sizeOf (PyVal.plist l) := by simp_arith
                simp only [PyVal.plist.sizeOf_spec] at hle
                omega
              have hmv := ih (PyVal.pdict bd) hsz hself
              simp only [merge_value] at hmv
              have h1 := congrArg Prod.fst hmv
              have h2 := congrArg Prod.snd hmv
              simp only [PyVal.pdict.injEq] at h1
              exact Prod.ext h1 h2
            simp [merge_value, hall2, hbb, hml]

theorem merge_value_self (v : PyVal) (h : selfOk v = true) :
    merge_value v v = (v, false) :=
  merge_value_self_aux (sizeOf v) v (Nat.le_refl _) h

/-- C4 (amended): a second pass of `execute` on an unchanged sweep issues
zero new dispatches, its final deep merge raises nothing, and the persisted
report it leaves equals the first pass's report with exactly the
`overall_sim_info` block replaced by the second pass's wall-clock times —
so the reports are NOT identical (they differ in the timestamps, see the
counterexample), but nothing else changes. Hypotheses: after the first pass
every angle's checkpoint records a success (`hclean`); the grafted report
body has the self-absorbing shape `selfOk` (unique keys in nested dicts,
well-formed named lists — true of reports built from well-formed specs) and
no `overall_sim_info` key of its own. -/
theorem C4_rerun_idempotent_up_to_clock (pfloat : String → Option ℚ)
    (sim : PyDict) (aoaList : List ℚ) (scndir refdir csvfile mesh : String)
    (ckpt₀ S : ℚ → CkptFile) (c₁ c₂ : Clock)
    (hclean : ∀ a ∈ aoaList, cleanCkpt (S a) = true)
    (hself : selfOk (.pdict (set_scenario_sim_info sim
      (.pdict (scenario_sim_info_val pfloat S scndir refdir csvfile mesh
        aoaList)))) = true)
    (hnov : lookupKey (set_scenario_sim_info sim
      (.pdict (scenario_sim_info_val pfloat S scndir refdir csvfile mesh
        aoaList))) "overall_sim_info" = none) :
    (execute_run pfloat sim aoaList scndir refdir csvfile mesh S S
      (some (execute_run pfloat sim aoaList scndir refdir csvfile mesh
        ckpt₀ S none c₁).report) c₂).payload = none ∧
    (execute_run pfloat sim aoaList scndir refdir csvfile mesh S S
      (some (execute_run pfloat sim aoaList scndir refdir csvfile mesh
        ckpt₀ S none c₁).report) c₂).mergeErr = false ∧
    (execute_run pfloat sim aoaList scndir refdir csvfile mesh S S
      (some (execute_run pfloat sim aoaList scndir refdir csvfile mesh
        ckpt₀ S none c₁).report) c₂).report =
      setKey (execute_run pfloat sim aoaList scndir refdir csvfile mesh
        ckpt₀ S none c₁).report "overall_sim_info"
        (.pdict (overall_sim_info_val c₂)) := by
  set body := set_scenario_sim_info sim
    (.pdict (scenario_sim_info_val pfloat S scndir refdir csvfile mesh aoaList))
    with hbody
  have hreport1 : (execute_run pfloat sim aoaList scndir refdir csvfile mesh
      ckpt₀ S none c₁).report =
      setKey body "overall_sim_info" (.pdict (overall_sim_info_val c₁)) := rfl
  have hpay : (execute_run pfloat sim aoaList scndir refdir csvfile mesh S S
      (some (execute_run pfloat sim aoaList scndir refdir csvfile mesh
        ckpt₀ S none c₁).report) c₂).payload = dispatch_payload S aoaList := rfl
  have hu₁ : setKey body "overall_sim_info" (.pdict (overall_sim_info_val c₁))
      = body ++ [("overall_sim_info", .pdict (overall_sim_info_val c₁))] :=
    setKey_of_notin _ _ _ hnov
  have hu₂ : setKey body "overall_sim_info" (.pdict (overall_sim_info_val c₂))
      = body ++ [("overall_sim_info", .pdict (overall_sim_info_val c₂))] :=
    setKey_of_notin _ _ _ hnov
  simp only [selfOk, Bool.and_eq_true, decide_eq_true_eq] at hself
  obtain ⟨hnodup, hdct⟩ := hself
  have hphase1 : deep_update
      (body ++ [("overall_sim_info", .pdict (overall_sim_info_val c₁))]) body
      = (body ++ [("overall_sim_info", .pdict (overall_sim_info_val c₁))],
        false) := by
    apply deep_update_self_of
    intro p hp
    obtain ⟨k₀, v₀⟩ := p
    refine ⟨lookupKey_append_left body _ k₀ v₀
      (lookup_of_mem_nodup body hnodup k₀ v₀ hp), ?_⟩
    exact merge_value_self v₀ (selfOkDict_mem body hdct k₀ v₀ hp)
  have hovlook : lookupKey
      (body ++ [("overall_sim_info", .pdict (overall_sim_info_val c₁))])
      "overall_sim_info" = some (.pdict (overall_sim_info_val c₁)) := by
    rw [lookupKey_append_of_notin body _ _
      ((lookupKey_eq_none_iff body _).mp hnov)]
    simp [lookupKey]
  have hovmerge : merge_value (.pdict (overall_sim_info_val c₁))
      (.pdict (overall_sim_info_val c₂))
      = (.pdict (overall_sim_info_val c₂), false) := by
    have hmvs : ∀ a b : String, merge_value (.pstr a) (.pstr b)
        = (.pstr b, false) :=
      fun a b => merge_value_other _ _ (Or.inl rfl) (Or.inl rfl)
    have hdu : deep_update (overall_sim_info_val c₁) (overall_sim_info_val c₂)
        = (overall_sim_info_val c₂, false) := by
      simp [overall_sim_info_val, deep_update, update_key, lookupKey, setKey,
        hmvs]
    simp [merge_value, hdu]
  have hkey : deep_update
      (body ++ [("overall_sim_info", .pdict (overall_sim_info_val c₁))])
      (body ++ [("overall_sim_info", .pdict (overall_sim_info_val c₂))])
      = (setKey (body ++ [("overall_sim_info",
          .pdict (overall_sim_info_val c₁))]) "overall_sim_info"
          (.pdict (overall_sim_info_val c₂)), false) := by
    rw [deep_update_append, hphase1]
    simp only [Bool.false_eq_true, if_false]
    rw [deep_update_cons, update_key_of_some _ _ _ _ hovlook, hovmerge]
    simp [deep_update_nil]
  refine ⟨?_, ?_, ?_⟩
  · rw [hpay]
    exact dispatch_payload_of_clean S aoaList hclean
  · show (deep_update (execute_run pfloat sim aoaList scndir refdir csvfile
        mesh ckpt₀ S none c₁).report
        (setKey body "overall_sim_info"
          (.pdict (overall_sim_info_val c₂)))).2 = false
    rw [hreport1, hu₁, hu₂, hkey]
  · show (deep_update (execute_run pfloat sim aoaList scndir refdir csvfile
        mesh ckpt₀ S none c₁).report
        (setKey body "overall_sim_info"
          (.pdict (overall_sim_info_val c₂)))).1 =
      setKey (execute_run pfloat sim aoaList scndir refdir csvfile mesh
        ckpt₀ S none c₁).report "overall_sim_info"
        (.pdict (overall_sim_info_val c₂))
    rw [hreport1, hu₁, hu₂, hkey]

/-- Counterexample to C4 as stated: a second pass on a fully unchanged sweep
persists a report that differs from the first pass's — `overall_sim_info`
carries the second pass's wall-clock times. -/
theorem C4_idempotence_counterexample :
    (c4run (some (c4run none ⟨"t1", "t2", "1.00 sec"⟩).report)
        ⟨"t3", "t4", "2.00 sec"⟩).report
      ≠ (c4run none ⟨"t1", "t2", "1.00 sec"⟩).report := by
  intro h
  have h2 := congrArg (fun d => lookupKey d "overall_sim_info") h
  simp [c4run, c4sim, execute_run, set_scenario_sim_info, scenario_sim_info_val,
    refinement_level_val, writer_loop, overKey, overFirst, setDictKey,
    overall_sim_info_val, deep_update, update_key, merge_value, merge_loop,
    buildBaseItems, lookupNameIdx, lookupKey, setKey, getName, nameEq,
    toRatScalar, PyVal.hashable, PyVal.isDict, dictKeys] at h2

/-- Witness for C4 on the minimal sweep: a rerun dispatches nothing, merges
cleanly and only refreshes `overall_sim_info`. -/
theorem C4_rerun_idempotent_up_to_clock_witness :
    (c4run (some (c4run none ⟨"t1", "t2", "1.00 sec"⟩).report)
        ⟨"t3", "t4", "2.00 sec"⟩).payload = none ∧
    (c4run (some (c4run none ⟨"t1", "t2", "1.00 sec"⟩).report)
        ⟨"t3", "t4", "2.00 sec"⟩).mergeErr = false ∧
    (c4run (some (c4run none ⟨"t1", "t2", "1.00 sec"⟩).report)
        ⟨"t3", "t4", "2.00 sec"⟩).report
      = setKey (c4run none ⟨"t1", "t2", "1.00 sec"⟩).report "overall_sim_info"
        (.pdict (overall_sim_info_val ⟨"t3", "t4", "2.00 sec"⟩)) := by
  exact C4_rerun_idempotent_up_to_clock (fun _ => none) c4sim [] "sd" "rd"
    "cf" "m1" (fun _ => CkptFile.absent) (fun _ => CkptFile.absent)
    ⟨"t1", "t2", "1.00 sec"⟩ ⟨"t3", "t4", "2.00 sec"⟩
    (by simp)
    (by simp [selfOk, selfOkList, selfOkDict, c4sim, set_scenario_sim_info,
      scenario_sim_info_val, refinement_level_val, writer_loop, overKey,
      overFirst, setDictKey, setKey, lookupKey, dictKeys, itemKey, getName,
      nameKey])
    (by simp [c4sim, set_scenario_sim_info, scenario_sim_info_val,
      refinement_level_val, writer_loop, overKey, overFirst, setDictKey,
      setKey, lookupKey])
